import Mathlib

/-!
Tago, etags for Go.

A shallow embedding of `tago.go` and the properties of the tags buffer it builds.

Conventions of the embedding.

* A Go `[]byte` or `string` is a `List Byte`; `len` is `List.length`.
* A Go `(value, error)` result is a pair whose second component is an `Option GoError`
  (`none` is `nil`).
* A run-time panic of the Go program is `Except.error` of the type `Panic`.
* The standard library is modelled by its documented behaviour: `bufio.Reader.ReadBytes`
  over an in-memory stream, `os.OpenFile` as a lookup in a `FileSystem`, `parser.ParseFile`
  as a function from file names to syntax trees, `fmt.Fprintf` as `Sprintf` followed by
  `Write`.
* The tags file is written to a `Disk`, a map from paths to what they hold; the input files
  are read through the `FileSystem` and the `Parser`, which a run does not change.
* Go `int` is 64 bits wide; it is modelled by `Int`.  The only counter of the program, the
  `i` of `GetLine`, is bounded by the number of newline bytes of the stream it reads.
-/

namespace Tago

/-- One byte of a Go string or byte slice. -/
abbrev Byte := UInt8

/-- The bytes of an ASCII string literal. -/
def bytes (s : String) : List Byte := s.toList.map (fun c => UInt8.ofNat c.toNat)

/-- The newline byte. -/
abbrev NL : Byte := 10

/-- A Go error value, identified by its text. -/
structure GoError where
  text : List Byte
  deriving DecidableEq

/-- The error `io.EOF`. -/
def EOF : GoError := ⟨bytes "EOF"⟩

/-- Run-time panics of the program. -/
inductive Panic where
  | sliceBoundsOutOfRange
  deriving DecidableEq

deriving instance DecidableEq for Except

/-! ## Standard library: bufio, os, fmt -/

/-- The method `bufio.Reader.ReadBytes(delim)` on a stream holding the bytes `r`: the data
read up to and including the first `delim`, the error (`io.EOF` when the stream ends before
a `delim`; the data read so far is still returned), and the rest of the stream. -/
def ReadBytes (delim : Byte) : List Byte → List Byte × Option GoError × List Byte
  | [] => ([], some EOF, [])
  | b :: rest =>
    if b = delim then ([b], none, rest)
    else
      match ReadBytes delim rest with
      | (data, err, rest1) => (b :: data, err, rest1)

/-- What `os.OpenFile(name, os.O_RDONLY, 0666)` gives: an error, or a reader over the bytes
of the file. -/
abbrev FileSystem := List Byte → Except GoError (List Byte)

/-- An operand of `fmt.Fprintf`. -/
inductive Arg where
  | str (s : List Byte)
  | int (i : Int)

/-- The decimal digits of `n`, most significant first, pushed in front of `acc`; the first
argument bounds the number of digits. -/
def decimalAux : Nat → Nat → List Byte → List Byte
  | 0, _, acc => acc
  | fuel + 1, n, acc =>
    let acc1 := UInt8.ofNat (48 + n % 10) :: acc
    if n / 10 = 0 then acc1 else decimalAux fuel (n / 10) acc1

/-- The decimal representation of a natural number. -/
def decimal (n : Nat) : List Byte := decimalAux (n + 1) n []

/-- The verb `%d` applied to a Go `int`. -/
def fmtInt (i : Int) : List Byte :=
  if i < 0 then UInt8.ofNat 45 :: decimal (-i).toNat else decimal i.toNat

/-- The function `fmt.Sprintf` for the verbs the program uses: `%s` with a string or byte
slice operand and `%d` with an integer operand; every other byte of the format is copied. -/
def Sprintf : List Byte → List Arg → List Byte
  | [], _ => []
  | [c], _ => [c]
  | c :: v :: rest, args =>
    if c = 37 then
      match args with
      | Arg.str s :: args1 =>
        if v = 115 then s ++ Sprintf rest args1 else c :: Sprintf (v :: rest) args
      | Arg.int i :: args1 =>
        if v = 100 then fmtInt i ++ Sprintf rest args1 else c :: Sprintf (v :: rest) args
      | [] => c :: Sprintf (v :: rest) args
    else c :: Sprintf (v :: rest) args

/-! ## Standard library: go/token, go/ast, go/parser -/

/-- A valid `token.Position`: file name, line and column, both counted from 1.  The
offset is not used by the program. -/
structure Position where
  Filename : List Byte
  Line : ℕ+
  Column : ℕ+
  deriving DecidableEq

/-- An `ast.Ident` of a parsed file: its name, with `Pos` the position that the shared
`token.FileSet` resolves `leaf.Pos()` to. -/
structure Ident where
  Name : List Byte
  Pos : Position
  deriving DecidableEq

/-- An `ast.Spec`, with the identifiers it holds: an import (with its optional local name),
a value specification (the names it introduces) or a type specification (its name, and the
field and method names of the type). -/
inductive Spec where
  | ImportSpec (Name : Option Ident) (Path : List Byte)
  | ValueSpec (Names : List Ident)
  | TypeSpec (Name : Ident) (Members : List Ident)

/-- An `ast.Decl`, with the identifiers it holds: a function declaration has its receiver
names, its name, its parameter names and the declarations nested in its body. -/
inductive Decl where
  | BadDecl
  | GenDecl (Specs : List Spec)
  | FuncDecl (Recv : List Ident) (Name : Ident) (Params : List Ident) (Body : List Decl)

/-- An `ast.File`. -/
structure File where
  Decls : List Decl

/-- The call `parser.ParseFile(t.files, fileName, nil, 0)`: a parse error or the tree. -/
abbrev Parser := List Byte → Except GoError File

/-! ## tago.go -/

/-- Lines 34-49: read the `n`-th line of the stream, without its newline. -/
def GetLine.loop (newline : Byte) : Nat → List Byte → List Byte → List Byte × Option GoError
  | 0, _, sought => (sought, none)
  | k + 1, r, _ =>
    match ReadBytes newline r with
    | (data, some e, _) => (data, some e)
    | (data, none, rest) => GetLine.loop newline k rest data

/-- Lines 34-49: the loop `for i := 1; i <= n; i++` runs `n.toNat` times, unless a read
fails: then the function returns at once, with `line` still nil.  After the loop the slice
expression `sought[0:len(sought)-1]` panics when its upper bound is negative. -/
def GetLine (r : List Byte) (n : Int) : Except Panic (List Byte × Option GoError) :=
  match GetLine.loop NL n.toNat r [] with
  | (_, some e) => .ok ([], some e)
  | (sought, none) =>
    if (sought.length : Int) - 1 < 0 then .error .sliceBoundsOutOfRange
    else .ok (sought.take (sought.length - 1), none)

/-- Lines 51-58: the line of the named file. -/
def getFileLine (fs : FileSystem) (name : List Byte) (n : Int) :
    Except Panic (List Byte × Option GoError) :=
  match fs name with
  | .error e => .ok ([], some e)
  | .ok file => GetLine file n

/-- Lines 77-80: the tags collected for a file.  The field `files` of the Go struct is the
shared file set; identifiers carry the positions it resolves.  The field `calls` is a
history variable that is not in the Go struct: the identifiers `tagIdent` was called
with, in call order. -/
structure FileTags where
  bag : List Byte
  calls : List Ident
  deriving DecidableEq

/-- Line 82. -/
def FileTags.String (t : FileTags) : List Byte := t.bag

/-- Lines 84-87. -/
def FileTags.Write (t : FileTags) (p : List Byte) : FileTags := { t with bag := t.bag ++ p }

/-- The value `new(FileTags)`. -/
def FileTags.new : FileTags := ⟨[], []⟩

/-- Lines 89-97: write a TAGS line to the buffer; when the line cannot be read a message
goes to standard output and the buffer is left alone.  The format string of line 95 holds
two control bytes: `0x7f` after the first `%s` and `0x01` after the second. -/
def FileTags.tagIdent (fs : FileSystem) (t : FileTags) (leaf : Ident) : Except Panic FileTags :=
  let pos := leaf.Pos
  let t1 := { t with calls := t.calls ++ [leaf] }
  match getFileLine fs pos.Filename ((pos.Line : Nat) : Int) with
  | .error p => .error p
  | .ok (_, some _) => .ok t1
  | .ok (s, none) =>
    .ok (t1.Write (Sprintf (bytes "%s\x7f%s\x01%d,%d\n")
      [Arg.str s, Arg.str leaf.Name, Arg.int ((pos.Line : Nat) : Int),
        Arg.int ((pos.Column : Nat) : Int)]))

/-- Lines 109-118: the inner switch of `parse`, on one specification. -/
def FileTags.tagSpec (fs : FileSystem) (t : FileTags) : Spec → Except Panic FileTags
  | .TypeSpec name _ => t.tagIdent fs name
  | .ValueSpec names => names.foldlM (fun t1 atom => t1.tagIdent fs atom) t
  | .ImportSpec _ _ => .ok t

/-- Lines 104-120: the outer switch of `parse`, on one top-level declaration. -/
def FileTags.tagDecl (fs : FileSystem) (t : FileTags) : Decl → Except Panic FileTags
  | .FuncDecl _ name _ _ => t.tagIdent fs name
  | .GenDecl specs => specs.foldlM (fun t1 c => t1.tagSpec fs c) t
  | .BadDecl => .ok t

/-- Lines 99-124: the receiver after the call, and the results `(tags, err)`. -/
def FileTags.parse (fs : FileSystem) (ParseFile : Parser) (t : FileTags) (fileName : List Byte) :
    Except Panic (FileTags × List Byte × Option GoError) :=
  match ParseFile fileName with
  | .error perr => .ok (t, [], some perr)
  | .ok ptree =>
    match ptree.Decls.foldlM (fun t1 l => t1.tagDecl fs l) t with
    | .error p => .error p
    | .ok t1 => .ok (t1, t1.String, none)

/-- Line 126. -/
abbrev TagsFile := FileTags

/-- Lines 158-168: the loop of `tagFiles`.  The variable `err` is the named result of
`tagFiles`, which line 162 tests. -/
def TagsFile.tagFiles.loop (fs : FileSystem) (ParseFile : Parser) (err : Option GoError) :
    TagsFile → List (List Byte) → Except Panic (TagsFile × Option GoError)
  | tagFile, [] => .ok (tagFile, none)
  | tagFile, fileName :: rest =>
    match FileTags.parse fs ParseFile FileTags.new fileName with
    | .error p => .error p
    | .ok (_, tags, perr) =>
      if err ≠ none then .ok (tagFile, perr)
      else
        let totalBytes : Int := tags.length
        TagsFile.tagFiles.loop fs ParseFile err
          (FileTags.Write tagFile (Sprintf (bytes "\x0c\n%s,%d\n%s")
            [Arg.str fileName, Arg.int totalBytes, Arg.str tags])) rest

/-- Lines 154-171: the receiver after the call, and the result `err`. -/
def TagsFile.tagFiles (fs : FileSystem) (ParseFile : Parser) (tagFile : TagsFile)
    (files : List (List Byte)) : Except Panic (TagsFile × Option GoError) :=
  TagsFile.tagFiles.loop fs ParseFile none tagFile files

/-! ## Standard library: os, writing -/

/-- What a path holds, as `os.OpenFile` in a write mode sees it: nothing, a regular file
with its content, or something that cannot be opened for writing (the error says why). -/
inductive Node where
  | absent
  | file (content : List Byte)
  | denied (e : GoError)
  deriving DecidableEq

/-- The paths the program may write to. -/
abbrev Disk := List Byte → Node

/-- The error `ENOENT`. -/
def ENOENT : GoError := ⟨bytes "no such file or directory"⟩

/-- The call `os.OpenFile(location, flag|os.O_WRONLY, 0666)`, where `create` says whether
`flag` holds `os.O_CREATE`: an error, or the content of the opened file, which is empty
when the file has just been created.  No flag of the program truncates the file. -/
def OpenFile (disk : Disk) (location : List Byte) (create : Bool) : Except GoError (List Byte) :=
  match disk location with
  | .denied e => .error e
  | .file content => .ok content
  | .absent => if create then .ok [] else .error ENOENT

/-- The content of a file after `len(b)` bytes are written at byte offset `off`: the bytes
before `off` stay, a gap beyond the end reads as zero bytes, and the bytes after the
written range stay.  Nothing happens when `b` is empty. -/
def WriteAt (content b : List Byte) (off : Nat) : List Byte :=
  if b = [] then content
  else content.take off ++ List.replicate (off - content.length) 0 ++ b ++
    content.drop (off + b.length)

/-- What `File.WriteAt(b, off)` does on a file opened with `os.O_APPEND`.  The Go
documentation of the time gives the positional write of `pwrite`; a Linux kernel ignores
the offset of `pwrite` on such a descriptor and appends; later Go releases return an
error without writing. -/
inductive WriteAtMode where
  | positional
  | appends
  | rejected
  deriving DecidableEq

/-! ## tago.go, continued -/

/-- Lines 72-74: the values of the flags `-d`, `-n` and `-a`. -/
structure Flags where
  saveDir : List Byte
  tagsName : List Byte
  appendMode : Bool

/-- Lines 133-152: write the buffer to the tags file.  In append mode the file is opened
without `os.O_CREATE` and the buffer goes to `WriteAt` with the offset `t.bag.Len()`;
otherwise the file is opened with `os.O_CREATE` and the buffer is written from the start.
A failure to open prints a message and writes nothing. -/
def TagsFile.saveTags (mode : WriteAtMode) (flags : Flags) (t : TagsFile) (disk : Disk) : Disk :=
  let location := Sprintf (bytes "%s%s") [Arg.str flags.saveDir, Arg.str flags.tagsName]
  if flags.appendMode then
    match OpenFile disk location false with
    | .error _ => disk
    | .ok content =>
      let b := t.bag.length
      match mode with
      | .positional => Function.update disk location (.file (WriteAt content t.bag b))
      | .appends => Function.update disk location (.file (content ++ t.bag))
      | .rejected => disk
  else
    match OpenFile disk location true with
    | .error _ => disk
    | .ok content => Function.update disk location (.file (WriteAt content t.bag 0))

/-- Lines 173-184: the disk after the run, and whether `saveTags` was called.  The error
that `tagFiles` returns is dropped. -/
def main (mode : WriteAtMode) (flags : Flags) (fs : FileSystem) (ParseFile : Parser)
    (args : List (List Byte)) (disk : Disk) : Except Panic (Disk × Bool) :=
  match TagsFile.tagFiles fs ParseFile FileTags.new args with
  | .error p => .error p
  | .ok (tea, _) =>
    if tea.String = [] then .ok (disk, false)
    else .ok (TagsFile.saveTags mode flags tea disk, true)

/-! ## Example files -/

/-- The file `a.go`: `func Foo() {}` on line 3 and `var a, b int` on line 5. -/
def sourceA : List Byte :=
  bytes "package main\n\nfunc Foo() \x7b\x7d\n\nvar a, b int\n"

/-- The tree of `a.go`. -/
def treeA : File :=
  ⟨[.FuncDecl [] ⟨bytes "Foo", ⟨bytes "a.go", 3, 6⟩⟩ [] [],
    .GenDecl [.ValueSpec [⟨bytes "a", ⟨bytes "a.go", 5, 5⟩⟩, ⟨bytes "b", ⟨bytes "a.go", 5, 8⟩⟩]]]⟩

/-- The file `b.go`, which is not a Go source file. -/
def sourceB : List Byte := bytes "package\n"

/-- The file `c.go`: one value declaration whose names are on two lines. -/
def sourceC : List Byte := bytes "package p\nvar a,\n\tb int\n"

/-- The tree of `c.go`. -/
def treeC : File :=
  ⟨[.GenDecl [.ValueSpec [⟨bytes "a", ⟨bytes "c.go", 2, 5⟩⟩, ⟨bytes "b", ⟨bytes "c.go", 3, 2⟩⟩]]]⟩

/-- The file `d.go`: a value declaration on a last line that has no newline. -/
def sourceD : List Byte := bytes "package p\nvar a, b int"

/-- The tree of `d.go`. -/
def treeD : File :=
  ⟨[.GenDecl [.ValueSpec [⟨bytes "a", ⟨bytes "d.go", 2, 5⟩⟩, ⟨bytes "b", ⟨bytes "d.go", 2, 8⟩⟩]]]⟩

/-- The file `e.go`: two declarations, the second on a last line that has no newline. -/
def sourceE : List Byte := bytes "package p\nvar x int\nvar y int"

/-- The tree of `e.go`. -/
def treeE : File :=
  ⟨[.GenDecl [.ValueSpec [⟨bytes "x", ⟨bytes "e.go", 2, 5⟩⟩]],
    .GenDecl [.ValueSpec [⟨bytes "y", ⟨bytes "e.go", 3, 5⟩⟩]]]⟩

/-- A file system with the files `a.go` to `e.go`. -/
def exampleFS : FileSystem := fun name =>
  if name = bytes "a.go" then .ok sourceA
  else if name = bytes "b.go" then .ok sourceB
  else if name = bytes "c.go" then .ok sourceC
  else if name = bytes "d.go" then .ok sourceD
  else if name = bytes "e.go" then .ok sourceE
  else .error ⟨bytes "no such file or directory"⟩

/-- The parser on the files of `exampleFS`: `b.go` has a syntax error. -/
def exampleParseFile : Parser := fun name =>
  if name = bytes "a.go" then .ok treeA
  else if name = bytes "b.go" then .error ⟨bytes "b.go:1:8: expected IDENT, found newline"⟩
  else if name = bytes "c.go" then .ok treeC
  else if name = bytes "d.go" then .ok treeD
  else if name = bytes "e.go" then .ok treeE
  else .error ⟨bytes "no such file or directory"⟩
/-- A parser for which every file holds a package clause and no declaration. -/
def packageOnlyParseFile : Parser := fun _ => .ok ⟨[]⟩

/-- A file system on which every file holds the package clause `package p` alone. -/
def packageOnlyFS : FileSystem := fun _ => .ok (bytes "package p\n")

/-- The file `g.go`: the text `var b1 int` on line 2 and on line 12. -/
def sourceG : List Byte :=
  bytes "package p\nvar b1 int\n\n\n\n\n\n\n\n\n\nvar b1 int\n"

/-- A file system with the one file `g.go`. -/
def fsG : FileSystem := fun name =>
  if name = bytes "g.go" then .ok sourceG else .error ⟨bytes "no such file or directory"⟩

/-- The flags `-d=/t/ -n=TAGS`, without `-a`. -/
def createFlags : Flags := ⟨bytes "/t/", bytes "TAGS", false⟩

/-- The flags `-d=/t/ -n=TAGS -a`. -/
def appendFlags : Flags := ⟨bytes "/t/", bytes "TAGS", true⟩

/-- A disk on which `/t/TAGS` does not exist yet. -/
def emptyDisk : Disk := fun _ => .absent

/-- A disk on which `/t/TAGS` holds the three bytes `old`. -/
def oldDisk : Disk := fun name => if name = bytes "/t/TAGS" then .file (bytes "old") else .absent

/-- A disk on which `/t/TAGS` holds thirty bytes. -/
def longDisk : Disk := fun name =>
  if name = bytes "/t/TAGS" then .file (bytes "0123456789abcdefghijABCDEFGHIJ") else .absent

/-! ## The words of the specification -/

/-- The function `bytes.Split(s, sep)` for a separator of one byte. -/
def Split (sep : Byte) : List Byte → List (List Byte)
  | [] => [[]]
  | b :: rest =>
    if b = sep then [] :: Split sep rest
    else
      match Split sep rest with
      | [] => [[b]]
      | l :: ls => (b :: l) :: ls

/-- The identifiers a specification contributes: the type name of a type specification,
every name of a value specification in listed order, nothing for an import. -/
def Spec.taggable : Spec → List Ident
  | .TypeSpec name _ => [name]
  | .ValueSpec names => names
  | .ImportSpec _ _ => []

/-- The identifiers a top-level declaration contributes: the name of a function
declaration, the identifiers of each specification of a grouped declaration. -/
def Decl.taggable : Decl → List Ident
  | .FuncDecl _ name _ _ => [name]
  | .GenDecl specs => (specs.map Spec.taggable).flatten
  | .BadDecl => []

/-- The taggable identifiers of a file, in source order over its top-level declarations. -/
def taggable (decls : List Decl) : List Ident := (decls.map Decl.taggable).flatten

/-- One record as the specification lays it out: line text, identifier name, line, a
comma, column, a newline, with no byte between the line text and the name. -/
def specRecord (s m : List Byte) (l c : Nat) : List Byte :=
  s ++ m ++ decimal l ++ bytes "," ++ decimal c ++ bytes "\n"

/-- One record as an etags line: line text, the byte `0x7f`, identifier name, the byte
`0x01`, line, a comma, column, a newline. -/
def record (s m : List Byte) (l c : Nat) : List Byte :=
  s ++ bytes "\x7f" ++ m ++ bytes "\x01" ++ decimal l ++ bytes "," ++ decimal c ++ bytes "\n"

/-- The text of the line an identifier is on, when `getFileLine` returns it without error. -/
def lineText (fs : FileSystem) (leaf : Ident) : Option (List Byte) :=
  match getFileLine fs leaf.Pos.Filename ((leaf.Pos.Line : Nat) : Int) with
  | .ok (s, none) => some s
  | _ => none

/-- The records of the identifiers whose line resolves, in the order of the identifiers. -/
def recordsOf (fs : FileSystem) (idents : List Ident) : List (List Byte) :=
  idents.filterMap (fun leaf =>
    (lineText fs leaf).map (fun s => record s leaf.Name leaf.Pos.Line leaf.Pos.Column))

/-- The record text of a parsed file: the records of its taggable identifiers. -/
def recordText (fs : FileSystem) (decls : List Decl) : List Byte :=
  (recordsOf fs (taggable decls)).flatten

/-- One block of the tags file: form feed, newline, file name, comma, the decimal length of
the body, newline, body. -/
def block (fileName body : List Byte) : List Byte :=
  bytes "\x0c\n" ++ fileName ++ bytes "," ++ decimal body.length ++ bytes "\n" ++ body

/-- The string `tags` that `parse` returns for a file on a new `FileTags`. -/
def tagsOf (fs : FileSystem) (ParseFile : Parser) (fileName : List Byte) : List Byte :=
  match FileTags.parse fs ParseFile FileTags.new fileName with
  | .ok (_, tags, _) => tags
  | .error _ => []

/-- A letter of an identifier: an ASCII letter or the underscore. -/
def isLetter (b : Byte) : Bool :=
  (97 ≤ b.toNat && b.toNat ≤ 122) || (65 ≤ b.toNat && b.toNat ≤ 90) || b.toNat = 95

/-- A decimal digit. -/
def isDigit (b : Byte) : Bool := 48 ≤ b.toNat && b.toNat ≤ 57

/-- An identifier of Go written in ASCII: a letter followed by letters and digits. -/
def isIdentifier : List Byte → Bool
  | [] => false
  | b :: rest => isLetter b && rest.all (fun c => isLetter c || isDigit c)

/-! ## A reader of the tags buffer -/

/-- The text before the first `sep` and the text after it. -/
def cutFirst (sep : Byte) : List Byte → Option (List Byte × List Byte)
  | [] => none
  | b :: rest =>
    if b = sep then some ([], rest)
    else
      match cutFirst sep rest with
      | some (x, y) => some (b :: x, y)
      | none => none

/-- The text before the last `sep` and the text after it. -/
def cutLast (sep : Byte) : List Byte → Option (List Byte × List Byte)
  | [] => none
  | b :: rest =>
    match cutLast sep rest with
    | some (x, y) => some (b :: x, y)
    | none => if b = sep then some ([], rest) else none

/-- The value of a string of decimal digits, read left to right from `acc`. -/
def parseDecimal.go (acc : Nat) : List Byte → Option Nat
  | [] => some acc
  | b :: rest =>
    if 48 ≤ b.toNat ∧ b.toNat ≤ 57 then parseDecimal.go (acc * 10 + (b.toNat - 48)) rest
    else none

/-- The value of a non-empty string of decimal digits. -/
def parseDecimal (l : List Byte) : Option Nat :=
  if l = [] then none else parseDecimal.go 0 l

/-- Read one block: a form feed, a newline, the header text up to the next newline, whose
digits after the last comma are the length, then that many bytes of body.  The result is
the file name, the body and the rest of the buffer. -/
def decodeBlock : List Byte → Option ((List Byte × List Byte) × List Byte)
  | ff :: nl :: rest =>
    if ff = 12 ∧ nl = NL then
      match cutFirst NL rest with
      | none => none
      | some (text, rest1) =>
        match cutLast 44 text with
        | none => none
        | some (name, digits) =>
          match parseDecimal digits with
          | none => none
          | some n =>
            if n ≤ rest1.length then some ((name, rest1.take n), rest1.drop n) else none
    else none
  | _ => none

/-- Read blocks until the buffer is empty; the first argument bounds their number. -/
def decodeBlocks : Nat → List Byte → Option (List (List Byte × List Byte))
  | _, [] => some []
  | 0, _ :: _ => none
  | fuel + 1, b :: buf =>
    match decodeBlock (b :: buf) with
    | none => none
    | some (p, rest) =>
      match decodeBlocks fuel rest with
      | none => none
      | some ps => some (p :: ps)

/-- Split a tags buffer into its (file name, body) pairs. -/
def decode (buf : List Byte) : Option (List (List Byte × List Byte)) :=
  decodeBlocks buf.length buf

/-! ## GetLine -/

theorem ReadBytes_append (delim : Byte) (line rest : List Byte) (h : delim ∉ line) :
    ReadBytes delim (line ++ delim :: rest) = (line ++ [delim], none, rest) := by
  induction line with
  | nil => simp [ReadBytes]
  | cons b l ih =>
    have hb : b ≠ delim := fun e => h (by simp [e])
    have hl : delim ∉ l := fun e => h (by simp [e])
    simp [ReadBytes, hb, ih hl]

theorem ReadBytes_eof (delim : Byte) (r : List Byte) (h : delim ∉ r) :
    ReadBytes delim r = (r, some EOF, []) := by
  induction r with
  | nil => simp [ReadBytes]
  | cons b l ih =>
    have hb : b ≠ delim := fun e => h (by simp [e])
    have hl : delim ∉ l := fun e => h (by simp [e])
    simp [ReadBytes, hb, ih hl]

theorem exists_first_delim (delim : Byte) (r : List Byte) (h : delim ∈ r) :
    ∃ line rest, r = line ++ delim :: rest ∧ delim ∉ line := by
  induction r with
  | nil => simp at h
  | cons b l ih =>
    by_cases hb : b = delim
    · exact ⟨[], l, by simp [hb], by simp⟩
    · have hl : delim ∈ l := by
        rcases List.mem_cons.1 h with e | e
        · exact absurd e.symm hb
        · exact e
      obtain ⟨line, rest, e, hn⟩ := ih hl
      refine ⟨b :: line, rest, by simp [e], ?_⟩
      intro hm
      rcases List.mem_cons.1 hm with e1 | e1
      · exact hb e1.symm
      · exact hn e1

theorem Split_append (sep : Byte) (line rest : List Byte) (h : sep ∉ line) :
    Split sep (line ++ sep :: rest) = line :: Split sep rest := by
  induction line with
  | nil => simp [Split]
  | cons b l ih =>
    have hb : b ≠ sep := fun e => h (by simp [e])
    have hl : sep ∉ l := fun e => h (by simp [e])
    simp [Split, hb, ih hl]

theorem count_eq_zero_of_not_mem (a : Byte) (l : List Byte) (h : a ∉ l) : l.count a = 0 :=
  List.count_eq_zero.2 h

/-- The loop of `GetLine` on a stream with too few newline bytes stops with `io.EOF`. -/
theorem GetLine.loop_eof (k : Nat) (r sought : List Byte) (h : r.count NL < k) :
    ∃ data, GetLine.loop NL k r sought = (data, some EOF) := by
  induction k generalizing r sought with
  | zero => omega
  | succ k ih =>
    by_cases hm : NL ∈ r
    · obtain ⟨line, rest, e, hn⟩ := exists_first_delim NL r hm
      subst e
      have hc : rest.count NL < k := by
        have := count_eq_zero_of_not_mem NL line hn
        simp [List.count_append, List.count_cons, this] at h
        omega
      obtain ⟨data, hd⟩ := ih rest (line ++ [NL]) hc
      exact ⟨data, by simp [GetLine.loop, ReadBytes_append NL line rest hn, hd]⟩
    · exact ⟨r, by simp [GetLine.loop, ReadBytes_eof NL r hm]⟩

/-- The loop of `GetLine` on a stream with enough newline bytes ends with the `k`-th
newline-terminated line in `sought`. -/
theorem GetLine.loop_line (k : Nat) (r sought : List Byte) (h : k + 1 ≤ r.count NL) :
    ∃ pre line post, r = pre ++ line ++ NL :: post ∧ (pre = [] ∨ ∃ p, pre = p ++ [NL]) ∧
      pre.count NL = k ∧ NL ∉ line ∧
      GetLine.loop NL (k + 1) r sought = (line ++ [NL], none) ∧
      (Split NL r)[k]? = some line := by
  induction k generalizing r sought with
  | zero =>
    have hm : NL ∈ r := List.count_pos_iff.1 (by omega)
    obtain ⟨line, rest, e, hn⟩ := exists_first_delim NL r hm
    subst e
    refine ⟨[], line, rest, by simp, Or.inl rfl, by simp, hn, ?_, ?_⟩
    · simp [GetLine.loop, ReadBytes_append NL line rest hn]
    · simp [Split_append NL line rest hn]
  | succ k ih =>
    have hm : NL ∈ r := List.count_pos_iff.1 (by omega)
    obtain ⟨l0, rest, e, hn⟩ := exists_first_delim NL r hm
    subst e
    have hc : k + 1 ≤ rest.count NL := by
      have := count_eq_zero_of_not_mem NL l0 hn
      simp [List.count_append, List.count_cons, this] at h
      omega
    obtain ⟨pre, line, post, e, hpre, hcnt, hline, hloop, hsplit⟩ := ih rest (l0 ++ [NL]) hc
    refine ⟨l0 ++ NL :: pre, line, post, by simp [e], Or.inr ?_, ?_, hline, ?_, ?_⟩
    · rcases hpre with hp | ⟨p, hp⟩
      · exact ⟨l0, by simp [hp]⟩
      · exact ⟨l0 ++ NL :: p, by simp [hp]⟩
    · have := count_eq_zero_of_not_mem NL l0 hn
      simp [List.count_append, List.count_cons, this, hcnt]
    · rw [GetLine.loop, ReadBytes_append NL l0 rest hn]
      exact hloop
    · simp [Split_append NL l0 rest hn, hsplit]

/-- With `n >= 1` and too few newline bytes `GetLine` returns a nil line and `io.EOF`. -/
theorem GetLine_short (r : List Byte) (n : Int) (h : (r.count NL : Int) < n) :
    GetLine r n = .ok ([], some EOF) := by
  have hk : r.count NL < n.toNat := by omega
  obtain ⟨data, hd⟩ := GetLine.loop_eof n.toNat r [] hk
  simp [GetLine, hd]

/-- With `n >= 1` and enough newline bytes `GetLine` returns the `n`-th line. -/
theorem GetLine_long (r : List Byte) (n : Int) (hn : 1 ≤ n) (hr : n ≤ (r.count NL : Int)) :
    ∃ pre line post, r = pre ++ line ++ NL :: post ∧ (pre = [] ∨ ∃ p, pre = p ++ [NL]) ∧
      (pre.count NL : Int) = n - 1 ∧ NL ∉ line ∧
      GetLine r n = .ok (line, none) ∧ (Split NL r)[(n - 1).toNat]? = some line := by
  obtain ⟨k, hk⟩ : ∃ k : Nat, n.toNat = k + 1 := ⟨n.toNat - 1, by omega⟩
  have hc : k + 1 ≤ r.count NL := by omega
  obtain ⟨pre, line, post, e, hpre, hcnt, hline, hloop, hsplit⟩ := GetLine.loop_line k r [] hc
  refine ⟨pre, line, post, e, hpre, by omega, hline, ?_, ?_⟩
  · have hlt : ¬ ((line.length : Int) + 1 - 1 < 0) := by omega
    simp [GetLine, hk, hloop, hlt]
  · have : (n - 1).toNat = k := by omega
    rw [this]
    exact hsplit

/-- C4. For every byte stream and every line number `n >= 1` such that the stream holds at
least `n` newline bytes, `GetLine` returns no error and returns exactly the bytes between
the `(n-1)`-th newline (or the start of the stream when `n = 1`) and the `n`-th newline,
without that newline; this is element `n-1` of the stream split on the newline byte. -/
theorem GetLine_returns_nth_line (r : List Byte) (n : Int) (hn : 1 ≤ n)
    (hr : n ≤ (r.count NL : Int)) :
    ∃ pre line post, r = pre ++ line ++ NL :: post ∧ (pre = [] ∨ ∃ p, pre = p ++ [NL]) ∧
      (pre.count NL : Int) = n - 1 ∧ NL ∉ line ∧
      GetLine r n = .ok (line, none) ∧ (Split NL r)[(n - 1).toNat]? = some line :=
  GetLine_long r n hn hr

/-- C4 at line 3 of `a.go`. -/
theorem GetLine_returns_nth_line_witness :
    (1 : Int) ≤ 3 ∧ (3 : Int) ≤ (sourceA.count NL : Int) ∧
    ∃ pre line post, sourceA = pre ++ line ++ NL :: post ∧
      (pre = [] ∨ ∃ p, pre = p ++ [NL]) ∧
      (pre.count NL : Int) = 3 - 1 ∧ NL ∉ line ∧
      GetLine sourceA 3 = .ok (line, none) ∧
      (Split NL sourceA)[((3 : Int) - 1).toNat]? = some line :=
  ⟨by decide, by decide, GetLine_returns_nth_line sourceA 3 (by decide) (by decide)⟩

/-- C7. For every byte stream and every `n >= 1`, `GetLine` returns an error if and only
if the stream has fewer than `n` newline bytes; the error is `io.EOF` and the returned line
is empty.  In particular the request for a final line without its newline fails. -/
theorem GetLine_error_iff (r : List Byte) (n : Int) (hn : 1 ≤ n) :
    (∃ line err, GetLine r n = .ok (line, err) ∧
      (err ≠ none ↔ (r.count NL : Int) < n) ∧ (err ≠ none → line = [] ∧ err = some EOF)) ∧
    (∀ pre last, r = pre ++ last → NL ∉ last → n = (pre.count NL : Int) + 1 →
      GetLine r n = .ok ([], some EOF)) := by
  constructor
  · by_cases h : (r.count NL : Int) < n
    · exact ⟨[], some EOF, GetLine_short r n h, by simp [h], by simp⟩
    · obtain ⟨pre, line, post, _, _, _, _, hg, _⟩ := GetLine_long r n hn (by omega)
      exact ⟨line, none, hg, by simp [h], by simp⟩
  · intro pre last e hl hn1
    apply GetLine_short
    subst e
    have := count_eq_zero_of_not_mem NL last hl
    simp [List.count_append, this, hn1]

/-- C7 at the stream `a\nb` and line 2, the last line without newline. -/
theorem GetLine_error_iff_witness :
    (1 : Int) ≤ 2 ∧
    ((∃ line err, GetLine (bytes "a\nb") 2 = .ok (line, err) ∧
      (err ≠ none ↔ (((bytes "a\nb").count NL : Nat) : Int) < 2) ∧
      (err ≠ none → line = [] ∧ err = some EOF)) ∧
    (∀ pre last, bytes "a\nb" = pre ++ last → NL ∉ last → (2 : Int) = (pre.count NL : Int) + 1 →
      GetLine (bytes "a\nb") 2 = .ok ([], some EOF))) :=
  ⟨by decide, GetLine_error_iff (bytes "a\nb") 2 (by decide)⟩

/-! ## Formatting -/

theorem fmtInt_natCast (n : Nat) : fmtInt (n : Int) = decimal n := by
  have h : ¬ ((n : Int) < 0) := by omega
  simp [fmtInt, h]

theorem Sprintf_record (s m : List Byte) (l c : Int) :
    Sprintf (bytes "%s\x7f%s\x01%d,%d\n") [Arg.str s, Arg.str m, Arg.int l, Arg.int c] =
      s ++ bytes "\x7f" ++ m ++ bytes "\x01" ++ fmtInt l ++ bytes "," ++ fmtInt c ++
        bytes "\n" := by
  have h1 : bytes "%s\x7f%s\x01%d,%d\n" =
      [37, 115, 127, 37, 115, 1, 37, 100, 44, 37, 100, 10] := by decide
  have h2 : bytes "," = [44] := by decide
  have h3 : bytes "\n" = [10] := by decide
  have h4 : bytes "\x7f" = [127] := by decide
  have h5 : bytes "\x01" = [1] := by decide
  rw [h1, h2, h3, h4, h5]
  simp [Sprintf]

theorem Sprintf_header (f tags : List Byte) (n : Int) :
    Sprintf (bytes "\x0c\n%s,%d\n%s") [Arg.str f, Arg.int n, Arg.str tags] =
      bytes "\x0c\n" ++ f ++ bytes "," ++ fmtInt n ++ bytes "\n" ++ tags := by
  have h1 : bytes "\x0c\n%s,%d\n%s" = [12, 10, 37, 115, 44, 37, 100, 10, 37, 115] := by decide
  have h2 : bytes "," = [44] := by decide
  have h3 : bytes "\n" = [10] := by decide
  have h4 : bytes "\x0c\n" = [12, 10] := by decide
  rw [h1, h2, h3, h4]
  simp [Sprintf]

/-! ## tagIdent and parse -/

/-- The function `getFileLine` returns when the line number is positive. -/
theorem getFileLine_pos (fs : FileSystem) (name : List Byte) (n : Int) (hn : 1 ≤ n) :
    ∃ line err, getFileLine fs name n = .ok (line, err) := by
  unfold getFileLine
  cases fs name with
  | error e => exact ⟨[], some e, rfl⟩
  | ok file =>
    by_cases h : (file.count NL : Int) < n
    · exact ⟨[], some EOF, GetLine_short file n h⟩
    · obtain ⟨_, line, _, _, _, _, _, hg, _⟩ := GetLine_long file n hn (by omega)
      exact ⟨line, none, hg⟩

theorem line_pos (leaf : Ident) : (1 : Int) ≤ ((leaf.Pos.Line : Nat) : Int) := by
  have := leaf.Pos.Line.pos
  omega

/-- The call `tagIdent` returns, logs the identifier, and appends the record of the
identifier when its line resolves and nothing otherwise. -/
theorem tagIdent_eq (fs : FileSystem) (t : FileTags) (leaf : Ident) :
    t.tagIdent fs leaf = .ok ⟨t.bag ++ (recordsOf fs [leaf]).flatten, t.calls ++ [leaf]⟩ := by
  obtain ⟨line, err, h⟩ := getFileLine_pos fs leaf.Pos.Filename _ (line_pos leaf)
  cases err with
  | some e => simp [FileTags.tagIdent, h, recordsOf, lineText]
  | none =>
    simp [FileTags.tagIdent, h, recordsOf, lineText, FileTags.Write, Sprintf_record,
      fmtInt_natCast, record]

theorem recordsOf_append (fs : FileSystem) (xs ys : List Ident) :
    recordsOf fs (xs ++ ys) = recordsOf fs xs ++ recordsOf fs ys := by
  simp [recordsOf, List.filterMap_append]

theorem recordsOf_cons (fs : FileSystem) (x : Ident) (xs : List Ident) :
    recordsOf fs (x :: xs) = recordsOf fs [x] ++ recordsOf fs xs :=
  recordsOf_append fs [x] xs

theorem tagNames_eq (fs : FileSystem) (names : List Ident) (t : FileTags) :
    names.foldlM (fun t1 atom => FileTags.tagIdent fs t1 atom) t =
      .ok ⟨t.bag ++ (recordsOf fs names).flatten, t.calls ++ names⟩ := by
  induction names generalizing t with
  | nil => simp [recordsOf]; rfl
  | cons a rest ih =>
    rw [List.foldlM_cons, tagIdent_eq]
    show List.foldlM _ _ rest = _
    rw [ih, recordsOf_cons fs a rest]
    simp [List.append_assoc]

theorem tagSpec_eq (fs : FileSystem) (t : FileTags) (c : Spec) :
    t.tagSpec fs c =
      .ok ⟨t.bag ++ (recordsOf fs c.taggable).flatten, t.calls ++ c.taggable⟩ := by
  cases c with
  | ImportSpec n p => simp [FileTags.tagSpec, Spec.taggable, recordsOf]
  | ValueSpec names => simp [FileTags.tagSpec, Spec.taggable, tagNames_eq]
  | TypeSpec name ms => simp [FileTags.tagSpec, Spec.taggable, tagIdent_eq]

theorem tagSpecs_eq (fs : FileSystem) (specs : List Spec) (t : FileTags) :
    specs.foldlM (fun t1 c => FileTags.tagSpec fs t1 c) t =
      .ok ⟨t.bag ++ (recordsOf fs (specs.map Spec.taggable).flatten).flatten,
        t.calls ++ (specs.map Spec.taggable).flatten⟩ := by
  induction specs generalizing t with
  | nil => simp [recordsOf]; rfl
  | cons c rest ih =>
    rw [List.foldlM_cons, tagSpec_eq]
    show List.foldlM _ _ rest = _
    rw [ih]
    simp [List.append_assoc, recordsOf_append]

theorem tagDecl_eq (fs : FileSystem) (t : FileTags) (l : Decl) :
    t.tagDecl fs l =
      .ok ⟨t.bag ++ (recordsOf fs l.taggable).flatten, t.calls ++ l.taggable⟩ := by
  cases l with
  | BadDecl => simp [FileTags.tagDecl, Decl.taggable, recordsOf]
  | GenDecl specs => simp [FileTags.tagDecl, Decl.taggable, tagSpecs_eq]
  | FuncDecl r name ps b => simp [FileTags.tagDecl, Decl.taggable, tagIdent_eq]

theorem tagDecls_eq (fs : FileSystem) (decls : List Decl) (t : FileTags) :
    decls.foldlM (fun t1 l => FileTags.tagDecl fs t1 l) t =
      .ok ⟨t.bag ++ recordText fs decls, t.calls ++ taggable decls⟩ := by
  induction decls generalizing t with
  | nil => simp [recordText, taggable, recordsOf]; rfl
  | cons l rest ih =>
    rw [List.foldlM_cons, tagDecl_eq]
    show List.foldlM _ _ rest = _
    rw [ih]
    simp [List.append_assoc, recordsOf_append, recordText, taggable]

theorem parse_ok (fs : FileSystem) (ParseFile : Parser) (t : FileTags) (fileName : List Byte)
    (file : File) (h : ParseFile fileName = .ok file) :
    t.parse fs ParseFile fileName =
      .ok (⟨t.bag ++ recordText fs file.Decls, t.calls ++ taggable file.Decls⟩,
        t.bag ++ recordText fs file.Decls, none) := by
  simp [FileTags.parse, h, tagDecls_eq, FileTags.String]

theorem parse_failed (fs : FileSystem) (ParseFile : Parser) (t : FileTags) (fileName : List Byte)
    (perr : GoError) (h : ParseFile fileName = .error perr) :
    t.parse fs ParseFile fileName = .ok (t, [], some perr) := by
  simp [FileTags.parse, h]

/-! ## tagFiles -/

theorem parse_new (fs : FileSystem) (ParseFile : Parser) (fileName : List Byte) :
    ∃ t1 perr, FileTags.parse fs ParseFile FileTags.new fileName =
      .ok (t1, tagsOf fs ParseFile fileName, perr) := by
  cases h : ParseFile fileName with
  | error perr =>
    refine ⟨FileTags.new, some perr, ?_⟩
    simp [tagsOf, parse_failed fs ParseFile _ fileName perr h]
  | ok file =>
    refine ⟨⟨FileTags.new.bag ++ recordText fs file.Decls,
      FileTags.new.calls ++ taggable file.Decls⟩, none, ?_⟩
    simp [tagsOf, parse_ok fs ParseFile _ fileName file h, FileTags.new]

theorem tagsOf_ok (fs : FileSystem) (ParseFile : Parser) (fileName : List Byte) (file : File)
    (h : ParseFile fileName = .ok file) :
    tagsOf fs ParseFile fileName = recordText fs file.Decls := by
  simp [tagsOf, parse_ok fs ParseFile _ fileName file h, FileTags.new]

theorem tagsOf_failed (fs : FileSystem) (ParseFile : Parser) (fileName : List Byte)
    (perr : GoError) (h : ParseFile fileName = .error perr) :
    tagsOf fs ParseFile fileName = [] := by
  simp [tagsOf, parse_failed fs ParseFile _ fileName perr h]

/-- The loop of `tagFiles` appends one block per file name and returns nil. -/
theorem tagFiles_loop_eq (fs : FileSystem) (ParseFile : Parser) (files : List (List Byte))
    (tagFile : TagsFile) :
    TagsFile.tagFiles.loop fs ParseFile none tagFile files =
      .ok (⟨tagFile.bag ++ (files.map (fun f => block f (tagsOf fs ParseFile f))).flatten,
        tagFile.calls⟩, none) := by
  induction files generalizing tagFile with
  | nil => simp [TagsFile.tagFiles.loop]
  | cons f rest ih =>
    obtain ⟨t1, perr, hp⟩ := parse_new fs ParseFile f
    rw [TagsFile.tagFiles.loop, hp]
    simp only [ne_eq, not_true_eq_false, if_false]
    rw [ih]
    simp [FileTags.Write, Sprintf_header, fmtInt_natCast, block, List.append_assoc]

theorem tagFiles_eq (fs : FileSystem) (ParseFile : Parser) (files : List (List Byte)) :
    TagsFile.tagFiles fs ParseFile FileTags.new files =
      .ok (⟨(files.map (fun f => block f (tagsOf fs ParseFile f))).flatten, []⟩, none) := by
  simp [TagsFile.tagFiles, tagFiles_loop_eq, FileTags.new]

/-! ## Decimal numbers -/

theorem digit_toNat : ∀ k < 10, (UInt8.ofNat (48 + k)).toNat = 48 + k := by decide

theorem decimalAux_eq (n : Nat) :
    ∀ fuel acc, n < fuel → decimalAux fuel n acc = decimal n ++ acc := by
  induction n using Nat.strong_induction_on with
  | _ n ih =>
    intro fuel acc hf
    cases fuel with
    | zero => omega
    | succ f =>
      by_cases h : n / 10 = 0
      · simp [decimal, decimalAux, h]
      · have hlt : n / 10 < n := by omega
        have h1 : decimal n = decimal (n / 10) ++ [UInt8.ofNat (48 + n % 10)] := by
          simp only [decimal, decimalAux, h, if_false]
          exact ih (n / 10) hlt n _ hlt
        rw [h1]
        simp only [decimalAux, h, if_false]
        rw [ih (n / 10) hlt f _ (by omega)]
        simp

theorem decimal_step (n : Nat) :
    decimal n = if n / 10 = 0 then [UInt8.ofNat (48 + n % 10)]
      else decimal (n / 10) ++ [UInt8.ofNat (48 + n % 10)] := by
  by_cases h : n / 10 = 0
  · simp [decimal, decimalAux, h]
  · have hlt : n / 10 < n := by omega
    simp only [h, if_false]
    simp only [decimal, decimalAux, h, if_false]
    exact decimalAux_eq (n / 10) n _ hlt

theorem decimal_ne_nil (n : Nat) : decimal n ≠ [] := by
  rw [decimal_step]
  split <;> simp

theorem decimal_digits (n : Nat) : ∀ b ∈ decimal n, 48 ≤ b.toNat ∧ b.toNat ≤ 57 := by
  induction n using Nat.strong_induction_on with
  | _ n ih =>
    have hd := digit_toNat (n % 10) (Nat.mod_lt _ (by decide))
    rw [decimal_step]
    by_cases h : n / 10 = 0
    · simp only [h, if_true]
      intro b hb
      simp at hb
      subst hb
      omega
    · simp only [h, if_false]
      intro b hb
      rcases List.mem_append.1 hb with hb | hb
      · exact ih (n / 10) (by omega) b hb
      · simp at hb
        subst hb
        omega

theorem not_mem_decimal (n : Nat) (b : Byte) (h : b.toNat < 48) : b ∉ decimal n := by
  intro hb
  have := decimal_digits n b hb
  omega

theorem parseDecimal_go_snoc (l : List Byte) (b : Byte) (acc : Nat) :
    parseDecimal.go acc (l ++ [b]) =
      match parseDecimal.go acc l with
      | some v => if 48 ≤ b.toNat ∧ b.toNat ≤ 57 then some (v * 10 + (b.toNat - 48)) else none
      | none => none := by
  induction l generalizing acc with
  | nil => simp [parseDecimal.go]
  | cons a l ih =>
    by_cases ha : 48 ≤ a.toNat ∧ a.toNat ≤ 57
    · simp [parseDecimal.go, ha, ih]
    · simp [parseDecimal.go, ha]

theorem parseDecimal_go_decimal (n : Nat) : parseDecimal.go 0 (decimal n) = some n := by
  induction n using Nat.strong_induction_on with
  | _ n ih =>
    have hd := digit_toNat (n % 10) (Nat.mod_lt _ (by decide))
    rw [decimal_step]
    by_cases h : n / 10 = 0
    · simp only [h, if_true]
      simp [parseDecimal.go, hd]
      omega
    · simp only [h, if_false]
      rw [parseDecimal_go_snoc, ih (n / 10) (by omega)]
      simp [hd]
      omega

/-- Reading back the decimal representation gives the number. -/
theorem parseDecimal_decimal (n : Nat) : parseDecimal (decimal n) = some n := by
  simp [parseDecimal, decimal_ne_nil, parseDecimal_go_decimal]

/-! ## Reading the buffer back -/

theorem cutFirst_append (sep : Byte) (x y : List Byte) (h : sep ∉ x) :
    cutFirst sep (x ++ sep :: y) = some (x, y) := by
  induction x with
  | nil => simp [cutFirst]
  | cons b l ih =>
    have hb : b ≠ sep := fun e => h (by simp [e])
    have hl : sep ∉ l := fun e => h (by simp [e])
    simp [cutFirst, hb, ih hl]

theorem cutLast_none (sep : Byte) (y : List Byte) (h : sep ∉ y) : cutLast sep y = none := by
  induction y with
  | nil => simp [cutLast]
  | cons b l ih =>
    have hb : b ≠ sep := fun e => h (by simp [e])
    have hl : sep ∉ l := fun e => h (by simp [e])
    simp [cutLast, hb, ih hl]

theorem cutLast_append (sep : Byte) (x y : List Byte) (h : sep ∉ y) :
    cutLast sep (x ++ sep :: y) = some (x, y) := by
  induction x with
  | nil => simp [cutLast, cutLast_none sep y h]
  | cons b l ih => simp [cutLast, ih]

theorem block_cons (f body : List Byte) :
    block f body = 12 :: NL :: (f ++ 44 :: decimal body.length) ++ NL :: body := by
  have h2 : bytes "," = [44] := by decide
  have h3 : bytes "\n" = [10] := by decide
  have h4 : bytes "\x0c\n" = [12, 10] := by decide
  simp [block, h2, h3, h4]

/-- Reading a block in front of any buffer gives its file name and body and leaves the
buffer. -/
theorem decodeBlock_block (f body rest : List Byte) (hf : NL ∉ f) :
    decodeBlock (block f body ++ rest) = some ((f, body), rest) := by
  have hnl : NL ∉ f ++ 44 :: decimal body.length := by
    intro hm
    rcases List.mem_append.1 hm with hm | hm
    · exact hf hm
    · rcases List.mem_cons.1 hm with hm | hm
      · exact absurd hm (by decide)
      · exact not_mem_decimal _ NL (by decide) hm
  have hcomma : (44 : Byte) ∉ decimal body.length := not_mem_decimal _ 44 (by decide)
  have e : block f body ++ rest =
      12 :: NL :: ((f ++ 44 :: decimal body.length) ++ NL :: (body ++ rest)) := by
    rw [block_cons]
    simp
  rw [e, decodeBlock]
  simp only [and_self, if_true]
  rw [cutFirst_append NL _ _ hnl]
  simp only []
  rw [cutLast_append 44 _ _ hcomma]
  simp only []
  rw [parseDecimal_decimal]
  simp

theorem block_ne_nil (f body : List Byte) : block f body ≠ [] := by
  rw [block_cons]
  simp

theorem decodeBlocks_blocks (pairs : List (List Byte × List Byte)) :
    ∀ fuel, pairs.length ≤ fuel → (∀ p ∈ pairs, NL ∉ p.1) →
      decodeBlocks fuel (pairs.map (fun p => block p.1 p.2)).flatten = some pairs := by
  induction pairs with
  | nil => intro fuel _ _; cases fuel <;> simp [decodeBlocks]
  | cons p ps ih =>
    intro fuel hfuel hnl
    cases fuel with
    | zero => simp at hfuel
    | succ k =>
      have hp : NL ∉ p.1 := hnl p (by simp)
      have hd := decodeBlock_block p.1 p.2 (ps.map (fun p => block p.1 p.2)).flatten hp
      have hrec := ih k (by simpa using hfuel) (fun q hq => hnl q (by simp [hq]))
      simp only [List.map_cons, List.flatten_cons]
      obtain ⟨b, buf, hb⟩ : ∃ b buf, block p.1 p.2 ++
          (ps.map (fun p => block p.1 p.2)).flatten = b :: buf := by
        rw [block_cons]
        exact ⟨_, _, rfl⟩
      rw [hb] at hd ⊢
      rw [decodeBlocks, hd]
      simp only []
      rw [hrec]

theorem length_le_blocks (pairs : List (List Byte × List Byte)) :
    pairs.length ≤ (pairs.map (fun p => block p.1 p.2)).flatten.length := by
  induction pairs with
  | nil => simp
  | cons p ps ih =>
    have : 0 < (block p.1 p.2).length := List.length_pos.2 (block_ne_nil _ _)
    simp only [List.map_cons, List.flatten_cons, List.length_cons, List.length_append]
    omega

theorem decode_blocks (pairs : List (List Byte × List Byte)) (h : ∀ p ∈ pairs, NL ∉ p.1) :
    decode (pairs.map (fun p => block p.1 p.2)).flatten = some pairs :=
  decodeBlocks_blocks pairs _ (length_le_blocks pairs) h

/-! ## The claims -/

/-- C1. For every list of input files, the decimal length that `tagFiles` writes in the
header of a file is the byte length of the text written directly after that header, and
that text is the string `parse` returns for that file alone, on a new `FileTags`. -/
theorem header_length_is_body_length (fs : FileSystem) (ParseFile : Parser)
    (files : List (List Byte)) :
    (∀ f, ∃ t1 perr, FileTags.parse fs ParseFile FileTags.new f =
      .ok (t1, tagsOf fs ParseFile f, perr)) ∧
    TagsFile.tagFiles fs ParseFile FileTags.new files =
      .ok (⟨(files.map (fun f => bytes "\x0c\n" ++ f ++ bytes "," ++
        decimal (tagsOf fs ParseFile f).length ++ bytes "\n" ++ tagsOf fs ParseFile f)).flatten,
        []⟩, none) :=
  ⟨parse_new fs ParseFile, tagFiles_eq fs ParseFile files⟩

/-- C2. Round trip: for every list of input files whose names hold no newline byte, the
reader `decode` consumes the whole buffer built by `tagFiles` and returns, in input order,
the pairs of a file name and the record text of that file. -/
theorem tags_buffer_round_trip (fs : FileSystem) (ParseFile : Parser)
    (files : List (List Byte)) (h : ∀ f ∈ files, NL ∉ f) :
    ∃ tagFile, TagsFile.tagFiles fs ParseFile FileTags.new files = .ok (tagFile, none) ∧
      decode tagFile.bag = some (files.map (fun f => (f, tagsOf fs ParseFile f))) := by
  refine ⟨_, tagFiles_eq fs ParseFile files, ?_⟩
  have h1 : ∀ p ∈ files.map (fun f => (f, tagsOf fs ParseFile f)), NL ∉ p.1 := by
    intro p hp
    obtain ⟨f, hf, e⟩ := List.mem_map.1 hp
    subst e
    exact h f hf
  have h2 := decode_blocks _ h1
  simpa [List.map_map, Function.comp_def] using h2

/-- C2 at the files `a.go` and `b.go`. -/
theorem tags_buffer_round_trip_witness :
    (∀ f ∈ [bytes "a.go", bytes "b.go"], NL ∉ f) ∧
    ∃ tagFile, TagsFile.tagFiles exampleFS exampleParseFile FileTags.new
        [bytes "a.go", bytes "b.go"] = .ok (tagFile, none) ∧
      decode tagFile.bag = some ([bytes "a.go", bytes "b.go"].map
        (fun f => (f, tagsOf exampleFS exampleParseFile f))) :=
  ⟨by decide, tags_buffer_round_trip exampleFS exampleParseFile _ (by decide)⟩

/-- C3. For every successfully parsed file, the identifiers `parse` passes to `tagIdent`
are exactly, in source order over the top-level declarations, the name of each function
declaration and, for each specification of each grouped declaration, the type name of a
type specification or every name of a value specification; each once, and nothing else. -/
theorem parse_tags_exactly_taggable (fs : FileSystem) (ParseFile : Parser) (t : FileTags)
    (fileName : List Byte) (file : File) (h : ParseFile fileName = .ok file) :
    ∃ t1 tags, t.parse fs ParseFile fileName = .ok (t1, tags, none) ∧
      t1.calls = t.calls ++ taggable file.Decls :=
  ⟨_, _, parse_ok fs ParseFile t fileName file h, rfl⟩

/-- C3 at the file `a.go`. -/
theorem parse_tags_exactly_taggable_witness :
    exampleParseFile (bytes "a.go") = .ok treeA ∧
    ∃ t1 tags, FileTags.parse exampleFS exampleParseFile FileTags.new (bytes "a.go") =
        .ok (t1, tags, none) ∧
      t1.calls = FileTags.new.calls ++ taggable treeA.Decls :=
  ⟨rfl, parse_tags_exactly_taggable exampleFS exampleParseFile FileTags.new _ treeA rfl⟩

/-- C5, as amended. For every identifier whose source line resolves to the text `s`,
`tagIdent` appends to the buffer exactly `s`, the byte `0x7f`, the name, the byte `0x01`,
the decimal digits of the line, a comma, the decimal digits of the column and one
newline. -/
theorem tagIdent_appends_record (fs : FileSystem) (t : FileTags) (leaf : Ident)
    (s : List Byte)
    (h : getFileLine fs leaf.Pos.Filename ((leaf.Pos.Line : Nat) : Int) = .ok (s, none)) :
    ∃ t1, t.tagIdent fs leaf = .ok t1 ∧
      t1.bag = t.bag ++ (s ++ bytes "\x7f" ++ leaf.Name ++ bytes "\x01" ++
        decimal leaf.Pos.Line ++ bytes "," ++ decimal leaf.Pos.Column ++ bytes "\n") := by
  refine ⟨_, by simp only [FileTags.tagIdent, h]; rfl, ?_⟩
  simp [FileTags.Write, Sprintf_record, fmtInt_natCast]

/-- C5, as amended, at `func Foo() {}` on line 3 of `a.go`: the record is `func Foo() {}`,
`0x7f`, `Foo`, `0x01`, `3,6` and a newline. -/
theorem tagIdent_appends_record_witness :
    getFileLine exampleFS (bytes "a.go") 3 = .ok (bytes "func Foo() \x7b\x7d", none) ∧
    ∃ t1, FileTags.tagIdent exampleFS FileTags.new ⟨bytes "Foo", ⟨bytes "a.go", 3, 6⟩⟩ = .ok t1 ∧
      t1.bag = bytes "func Foo() \x7b\x7d\x7fFoo\x013,6\n" := by
  refine ⟨by decide, ?_⟩
  obtain ⟨t1, h1, h2⟩ := tagIdent_appends_record exampleFS FileTags.new
    ⟨bytes "Foo", ⟨bytes "a.go", 3, 6⟩⟩ (bytes "func Foo() \x7b\x7d") (by decide)
  exact ⟨t1, h1, by rw [h2]; decide⟩

/-- C5, counterexample. For `Foo` on line 3, column 6 of `a.go`, whose line resolves to
`func Foo() {}`, `tagIdent` appends 22 bytes with `0x7f` between the line text and the
name; the record of the claim, `func Foo() {}Foo3,6` and a newline, has 20 bytes. -/
theorem tagIdent_record_counterexample :
    getFileLine exampleFS (bytes "a.go") 3 = .ok (bytes "func Foo() \x7b\x7d", none) ∧
    FileTags.tagIdent exampleFS FileTags.new ⟨bytes "Foo", ⟨bytes "a.go", 3, 6⟩⟩ =
      .ok ⟨bytes "func Foo() \x7b\x7d\x7fFoo\x013,6\n", [⟨bytes "Foo", ⟨bytes "a.go", 3, 6⟩⟩]⟩ ∧
    specRecord (bytes "func Foo() \x7b\x7d") (bytes "Foo") 3 6 =
      bytes "func Foo() \x7b\x7dFoo3,6\n" ∧
    bytes "func Foo() \x7b\x7d\x7fFoo\x013,6\n" ≠
      FileTags.new.bag ++ specRecord (bytes "func Foo() \x7b\x7d") (bytes "Foo") 3 6 :=
  ⟨by decide, by decide, by decide, by decide⟩

theorem map_block_eq_zipWith (fs : FileSystem) (ParseFile : Parser)
    (files : List (List Byte)) (trees : List File)
    (h : List.Forall₂ (fun f tr => ParseFile f = .ok tr) files trees) :
    files.map (fun f => block f (tagsOf fs ParseFile f)) =
      List.zipWith (fun f (tr : File) => block f (recordText fs tr.Decls)) files trees := by
  induction h with
  | nil => rfl
  | cons hd _ ih => simp [ih, tagsOf_ok fs ParseFile _ _ hd]

/-- C6. For every list of input files that all parse, the buffer built by `tagFiles` from
an empty buffer is the concatenation, in the order the file names were given, of one block
per file: a form feed, a newline, the file name, a comma, the decimal byte length of the
record text of the file, a newline, and the record text of the file. -/
theorem tagFiles_builds_blocks (fs : FileSystem) (ParseFile : Parser)
    (files : List (List Byte)) (trees : List File)
    (h : List.Forall₂ (fun f tr => ParseFile f = .ok tr) files trees) :
    TagsFile.tagFiles fs ParseFile FileTags.new files =
      .ok (⟨(List.zipWith (fun f (tr : File) => bytes "\x0c\n" ++ f ++ bytes "," ++
        decimal (recordText fs tr.Decls).length ++ bytes "\n" ++ recordText fs tr.Decls)
        files trees).flatten, []⟩, none) := by
  rw [tagFiles_eq, map_block_eq_zipWith fs ParseFile files trees h]
  rfl

/-- C6 at the files `a.go` and `c.go`, whose record texts have 60 and 26 bytes. -/
theorem tagFiles_builds_blocks_witness :
    List.Forall₂ (fun f tr => exampleParseFile f = .ok tr)
      [bytes "a.go", bytes "c.go"] [treeA, treeC] ∧
    TagsFile.tagFiles exampleFS exampleParseFile FileTags.new [bytes "a.go", bytes "c.go"] =
      .ok (⟨(List.zipWith (fun f (tr : File) => bytes "\x0c\n" ++ f ++ bytes "," ++
        decimal (recordText exampleFS tr.Decls).length ++ bytes "\n" ++
        recordText exampleFS tr.Decls)
        [bytes "a.go", bytes "c.go"] [treeA, treeC]).flatten, []⟩, none) ∧
    TagsFile.tagFiles exampleFS exampleParseFile FileTags.new [bytes "a.go", bytes "c.go"] =
      .ok (⟨bytes "\x0c\na.go,60\n" ++
        (bytes "func Foo() \x7b\x7d\x7fFoo\x013,6\n" ++ bytes "var a, b int\x7fa\x015,5\n" ++
          bytes "var a, b int\x7fb\x015,8\n") ++
        bytes "\x0c\nc.go,26\n" ++
        (bytes "var a,\x7fa\x012,5\n" ++ bytes "\tb int\x7fb\x013,2\n"), []⟩, none) :=
  ⟨.cons rfl (.cons rfl .nil),
    tagFiles_builds_blocks exampleFS exampleParseFile _ _ (.cons rfl (.cons rfl .nil)),
    by decide⟩

theorem recordsOf_resolved (fs : FileSystem) (names : List Ident) (lines : List (List Byte))
    (h : List.Forall₂ (fun leaf s =>
      getFileLine fs leaf.Pos.Filename ((leaf.Pos.Line : Nat) : Int) = .ok (s, none))
      names lines) :
    recordsOf fs names =
      List.zipWith (fun leaf s => record s leaf.Name leaf.Pos.Line leaf.Pos.Column)
        names lines := by
  induction h with
  | nil => rfl
  | cons hd _ ih =>
    rw [recordsOf_cons, ih]
    simp [recordsOf, lineText, hd]

/-- C8, as amended. For every successfully parsed file, a top-level value declaration
introducing N names whose lines all resolve yields exactly N records in the block of the
file, one per name in listed order, each with the line text, line number and column of its
own identifier; they stand between the records of the identifiers declared before and
after. -/
theorem value_spec_records (fs : FileSystem) (ParseFile : Parser) (fileName : List Byte)
    (dpre dpost : List Decl) (spre spost : List Spec) (names : List Ident)
    (lines : List (List Byte))
    (hp : ParseFile fileName = .ok ⟨dpre ++ .GenDecl (spre ++ .ValueSpec names :: spost) :: dpost⟩)
    (hl : List.Forall₂ (fun leaf s =>
      getFileLine fs leaf.Pos.Filename ((leaf.Pos.Line : Nat) : Int) = .ok (s, none))
      names lines) :
    (∃ t1, FileTags.parse fs ParseFile FileTags.new fileName = .ok (t1,
      (recordsOf fs (taggable dpre ++ (spre.map Spec.taggable).flatten)).flatten ++
      (List.zipWith (fun leaf s => record s leaf.Name leaf.Pos.Line leaf.Pos.Column)
        names lines).flatten ++
      (recordsOf fs ((spost.map Spec.taggable).flatten ++ taggable dpost)).flatten, none)) ∧
    (List.zipWith (fun leaf s => record s leaf.Name leaf.Pos.Line leaf.Pos.Column)
      names lines).length = names.length := by
  constructor
  · rw [parse_ok fs ParseFile _ fileName _ hp, ← recordsOf_resolved fs names lines hl]
    refine ⟨⟨FileTags.new.bag ++
      recordText fs (dpre ++ .GenDecl (spre ++ .ValueSpec names :: spost) :: dpost),
      FileTags.new.calls ++
      taggable (dpre ++ .GenDecl (spre ++ .ValueSpec names :: spost) :: dpost)⟩, ?_⟩
    simp [FileTags.new, recordText, taggable, Decl.taggable, Spec.taggable, recordsOf_append,
      List.append_assoc]
  · simp [List.length_zipWith, hl.length_eq]

/-- C8, as amended, at `var a, b int` on line 5 of `a.go`: two records, for `a` at column 5
and `b` at column 8. -/
theorem value_spec_records_witness :
    exampleParseFile (bytes "a.go") =
      .ok ⟨[.FuncDecl [] ⟨bytes "Foo", ⟨bytes "a.go", 3, 6⟩⟩ [] []] ++
        .GenDecl ([] ++ .ValueSpec [⟨bytes "a", ⟨bytes "a.go", 5, 5⟩⟩,
          ⟨bytes "b", ⟨bytes "a.go", 5, 8⟩⟩] :: []) :: []⟩ ∧
    List.Forall₂ (fun (leaf : Ident) s =>
      getFileLine exampleFS leaf.Pos.Filename ((leaf.Pos.Line : Nat) : Int) = .ok (s, none))
      [⟨bytes "a", ⟨bytes "a.go", 5, 5⟩⟩, ⟨bytes "b", ⟨bytes "a.go", 5, 8⟩⟩]
      [bytes "var a, b int", bytes "var a, b int"] ∧
    (∃ t1, FileTags.parse exampleFS exampleParseFile FileTags.new (bytes "a.go") = .ok (t1,
      bytes "func Foo() \x7b\x7d\x7fFoo\x013,6\n" ++
      (bytes "var a, b int\x7fa\x015,5\n" ++ bytes "var a, b int\x7fb\x015,8\n") ++ [],
      none)) ∧
    (List.zipWith (fun (leaf : Ident) s => record s leaf.Name leaf.Pos.Line leaf.Pos.Column)
      [⟨bytes "a", ⟨bytes "a.go", 5, 5⟩⟩, ⟨bytes "b", ⟨bytes "a.go", 5, 8⟩⟩]
      [bytes "var a, b int", bytes "var a, b int"]).length = 2 := by
  have hl : List.Forall₂ (fun (leaf : Ident) s =>
      getFileLine exampleFS leaf.Pos.Filename ((leaf.Pos.Line : Nat) : Int) = .ok (s, none))
      [⟨bytes "a", ⟨bytes "a.go", 5, 5⟩⟩, ⟨bytes "b", ⟨bytes "a.go", 5, 8⟩⟩]
      [bytes "var a, b int", bytes "var a, b int"] :=
    .cons (by decide) (.cons (by decide) .nil)
  obtain ⟨⟨t1, h1⟩, h2⟩ := value_spec_records exampleFS exampleParseFile (bytes "a.go")
    [.FuncDecl [] ⟨bytes "Foo", ⟨bytes "a.go", 3, 6⟩⟩ [] []] [] [] []
    [⟨bytes "a", ⟨bytes "a.go", 5, 5⟩⟩, ⟨bytes "b", ⟨bytes "a.go", 5, 8⟩⟩]
    [bytes "var a, b int", bytes "var a, b int"] rfl hl
  refine ⟨rfl, hl, ⟨t1, h1.trans ?_⟩, h2⟩
  have e1 : (recordsOf exampleFS (taggable [.FuncDecl [] ⟨bytes "Foo", ⟨bytes "a.go", 3, 6⟩⟩ [] []]
      ++ (([] : List Spec).map Spec.taggable).flatten)).flatten =
      bytes "func Foo() \x7b\x7d\x7fFoo\x013,6\n" := by decide
  have e2 : (List.zipWith (fun (leaf : Ident) s =>
      record s leaf.Name leaf.Pos.Line leaf.Pos.Column)
      [⟨bytes "a", ⟨bytes "a.go", 5, 5⟩⟩, ⟨bytes "b", ⟨bytes "a.go", 5, 8⟩⟩]
      [bytes "var a, b int", bytes "var a, b int"]).flatten =
      bytes "var a, b int\x7fa\x015,5\n" ++ bytes "var a, b int\x7fb\x015,8\n" := by
    decide
  have e3 : (recordsOf exampleFS ((([] : List Spec).map Spec.taggable).flatten ++
      taggable [])).flatten = [] := by decide
  rw [e1, e2, e3]

/-- C8, counterexample. In `d.go` a value declaration introduces two names on a last line
without newline and the block holds no record; in `c.go` the two names of one value
declaration are on lines 2 and 3 and their records carry different line texts and line
numbers. -/
theorem value_spec_counterexample :
    (exampleParseFile (bytes "d.go") = .ok ⟨[.GenDecl [.ValueSpec
        [⟨bytes "a", ⟨bytes "d.go", 2, 5⟩⟩, ⟨bytes "b", ⟨bytes "d.go", 2, 8⟩⟩]]]⟩ ∧
      FileTags.parse exampleFS exampleParseFile FileTags.new (bytes "d.go") =
        .ok (⟨[], [⟨bytes "a", ⟨bytes "d.go", 2, 5⟩⟩, ⟨bytes "b", ⟨bytes "d.go", 2, 8⟩⟩]⟩,
          [], none) ∧
      (recordsOf exampleFS
        [⟨bytes "a", ⟨bytes "d.go", 2, 5⟩⟩, ⟨bytes "b", ⟨bytes "d.go", 2, 8⟩⟩]).length ≠
        [(⟨bytes "a", ⟨bytes "d.go", 2, 5⟩⟩ : Ident), ⟨bytes "b", ⟨bytes "d.go", 2, 8⟩⟩].length) ∧
    (exampleParseFile (bytes "c.go") = .ok ⟨[.GenDecl [.ValueSpec
        [⟨bytes "a", ⟨bytes "c.go", 2, 5⟩⟩, ⟨bytes "b", ⟨bytes "c.go", 3, 2⟩⟩]]]⟩ ∧
      FileTags.parse exampleFS exampleParseFile FileTags.new (bytes "c.go") =
        .ok (⟨bytes "var a,\x7fa\x012,5\n" ++ bytes "\tb int\x7fb\x013,2\n",
          [⟨bytes "a", ⟨bytes "c.go", 2, 5⟩⟩, ⟨bytes "b", ⟨bytes "c.go", 3, 2⟩⟩]⟩,
          bytes "var a,\x7fa\x012,5\n" ++ bytes "\tb int\x7fb\x013,2\n",
          none) ∧
      bytes "var a," ≠ bytes "\tb int") :=
  ⟨⟨rfl, by decide, by decide⟩, ⟨rfl, by decide, by decide⟩⟩

/-- C9. When the line of a tagged identifier cannot be resolved, `tagIdent` returns with
the buffer unchanged, and the walk goes on: the record text of a parsed file is the
concatenation, in walk order, of the records of the identifiers whose line did resolve. -/
theorem unresolved_line_skipped (fs : FileSystem) (ParseFile : Parser) :
    (∀ (t : FileTags) (leaf : Ident) (s : List Byte) (e : GoError),
      getFileLine fs leaf.Pos.Filename ((leaf.Pos.Line : Nat) : Int) = .ok (s, some e) →
      t.tagIdent fs leaf = .ok ⟨t.bag, t.calls ++ [leaf]⟩) ∧
    (∀ (fileName : List Byte) (file : File), ParseFile fileName = .ok file →
      ∃ t1, FileTags.parse fs ParseFile FileTags.new fileName =
        .ok (t1, (recordsOf fs (taggable file.Decls)).flatten, none)) := by
  constructor
  · intro t leaf s e h
    simp [FileTags.tagIdent, h]
  · intro fileName file h
    rw [parse_ok fs ParseFile _ fileName file h]
    refine ⟨⟨FileTags.new.bag ++ recordText fs file.Decls,
      FileTags.new.calls ++ taggable file.Decls⟩, ?_⟩
    simp [FileTags.new, recordText]

/-- C9 at the file `e.go`: `y` on the last line is skipped, the record of `x` is written. -/
theorem unresolved_line_skipped_witness :
    getFileLine exampleFS (bytes "e.go") 3 = .ok ([], some EOF) ∧
    FileTags.tagIdent exampleFS ⟨bytes "var x int\x7fx\x012,5\n", []⟩ ⟨bytes "y", ⟨bytes "e.go", 3, 5⟩⟩ =
      .ok ⟨bytes "var x int\x7fx\x012,5\n", [] ++ [⟨bytes "y", ⟨bytes "e.go", 3, 5⟩⟩]⟩ ∧
    exampleParseFile (bytes "e.go") = .ok treeE ∧
    ∃ t1, FileTags.parse exampleFS exampleParseFile FileTags.new (bytes "e.go") =
      .ok (t1, bytes "var x int\x7fx\x012,5\n", none) := by
  have h := unresolved_line_skipped exampleFS exampleParseFile
  refine ⟨by decide, h.1 _ ⟨bytes "y", ⟨bytes "e.go", 3, 5⟩⟩ [] EOF (by decide), rfl, ?_⟩
  obtain ⟨t1, h1⟩ := h.2 (bytes "e.go") treeE rfl
  have e : (recordsOf exampleFS (taggable treeE.Decls)).flatten = bytes "var x int\x7fx\x012,5\n" := by
    decide
  exact ⟨t1, by rw [← e]; exact h1⟩

/-- C10, the code at a failing input. The file `b.go` does not parse, and `tagFiles` returns
a nil error, with a header of length 0 for `b.go` and the block of the next file `a.go`. -/
theorem tagFiles_parse_error_not_returned :
    exampleParseFile (bytes "b.go") =
      .error ⟨bytes "b.go:1:8: expected IDENT, found newline"⟩ ∧
    TagsFile.tagFiles exampleFS exampleParseFile FileTags.new [bytes "b.go", bytes "a.go"] =
      .ok (⟨bytes "\x0c\nb.go,0\n" ++ bytes "\x0c\na.go,60\n" ++
        (bytes "func Foo() \x7b\x7d\x7fFoo\x013,6\n" ++ bytes "var a, b int\x7fa\x015,5\n" ++
          bytes "var a, b int\x7fb\x015,8\n"), []⟩, none) :=
  ⟨rfl, by decide⟩


/-! ## saveTags and main -/

theorem Sprintf_location (a b : List Byte) :
    Sprintf (bytes "%s%s") [Arg.str a, Arg.str b] = a ++ b := by
  have h1 : bytes "%s%s" = [37, 115, 37, 115] := by decide
  rw [h1]
  simp [Sprintf]

theorem WriteAt_zero (content b : List Byte) :
    WriteAt content b 0 = b ++ content.drop b.length := by
  by_cases h : b = []
  · simp [WriteAt, h]
  · simp [WriteAt, h]

theorem WriteAt_zero_idem (content b : List Byte) :
    WriteAt (WriteAt content b 0) b 0 = WriteAt content b 0 := by
  simp [WriteAt_zero]

/-- Without `-a`, saving the same buffer twice gives the disk of the first save. -/
theorem saveTags_create_idem (mode : WriteAtMode) (flags : Flags) (t : TagsFile) (disk : Disk)
    (h : flags.appendMode = false) :
    TagsFile.saveTags mode flags t (TagsFile.saveTags mode flags t disk) =
      TagsFile.saveTags mode flags t disk := by
  cases hd : disk (flags.saveDir ++ flags.tagsName) with
  | absent =>
    simp [TagsFile.saveTags, h, Sprintf_location, OpenFile, hd, WriteAt_zero_idem]
  | file content =>
    simp [TagsFile.saveTags, h, Sprintf_location, OpenFile, hd, WriteAt_zero_idem]
  | denied e =>
    simp [TagsFile.saveTags, h, Sprintf_location, OpenFile, hd]

theorem blocks_eq_nil_iff (fs : FileSystem) (ParseFile : Parser) (files : List (List Byte)) :
    (files.map (fun f => block f (tagsOf fs ParseFile f))).flatten = [] ↔ files = [] := by
  cases files with
  | nil => simp
  | cons f rest =>
    have := block_ne_nil f (tagsOf fs ParseFile f)
    simp [this]

/-- The run saves the buffer of `tagFiles` unless the buffer is empty. -/
theorem main_eq (mode : WriteAtMode) (flags : Flags) (fs : FileSystem) (ParseFile : Parser)
    (args : List (List Byte)) (disk : Disk) :
    main mode flags fs ParseFile args disk =
      if args = [] then .ok (disk, false)
      else .ok (TagsFile.saveTags mode flags
        ⟨(args.map (fun f => block f (tagsOf fs ParseFile f))).flatten, []⟩ disk, true) := by
  simp only [main, tagFiles_eq, FileTags.String, blocks_eq_nil_iff]

/-- C11, as amended. With no input file the buffer built by `tagFiles` is empty, `main`
takes the abort branch and `saveTags` is not called: the disk is untouched.  A file that
parses contributes its header even when it yields no record, so with at least one input
file, all of which parse, the buffer is not empty and `main` calls `saveTags` on it. -/
theorem main_abort_branch (mode : WriteAtMode) (flags : Flags) (fs : FileSystem)
    (ParseFile : Parser) (disk : Disk) :
    (TagsFile.tagFiles fs ParseFile FileTags.new [] = .ok (⟨[], []⟩, none) ∧
      main mode flags fs ParseFile [] disk = .ok (disk, false)) ∧
    (∀ files trees, files ≠ [] →
      List.Forall₂ (fun f tr => ParseFile f = .ok tr) files trees →
      ∃ tea, TagsFile.tagFiles fs ParseFile FileTags.new files = .ok (tea, none) ∧
        tea.bag ≠ [] ∧
        main mode flags fs ParseFile files disk =
          .ok (TagsFile.saveTags mode flags tea disk, true)) := by
  refine ⟨⟨by simp [tagFiles_eq], by simp [main_eq]⟩, ?_⟩
  intro files trees hne _
  refine ⟨⟨(files.map (fun f => block f (tagsOf fs ParseFile f))).flatten, []⟩,
    tagFiles_eq fs ParseFile files, ?_, ?_⟩
  · exact fun e => hne ((blocks_eq_nil_iff fs ParseFile files).1 e)
  · simp [main_eq, hne]

/-- C11, as amended, at the file `a.go`. -/
theorem main_abort_branch_witness :
    [bytes "a.go"] ≠ [] ∧
    List.Forall₂ (fun f tr => exampleParseFile f = .ok tr) [bytes "a.go"] [treeA] ∧
    ∃ tea, TagsFile.tagFiles exampleFS exampleParseFile FileTags.new [bytes "a.go"] =
        .ok (tea, none) ∧
      tea.bag ≠ [] ∧
      main .positional createFlags exampleFS exampleParseFile [bytes "a.go"] emptyDisk =
        .ok (TagsFile.saveTags .positional createFlags tea emptyDisk, true) :=
  ⟨by decide, .cons rfl .nil,
    (main_abort_branch .positional createFlags exampleFS exampleParseFile emptyDisk).2
      [bytes "a.go"] [treeA] (by decide) (.cons rfl .nil)⟩

/-- C11, counterexample. The one input file `f.go` parses and yields zero records; the
buffer built by `tagFiles` is its header, `main` calls `saveTags` and the tags file is
created with that header. -/
theorem main_zero_records_counterexample :
    packageOnlyParseFile (bytes "f.go") = .ok ⟨[]⟩ ∧
    recordsOf packageOnlyFS (taggable []) = [] ∧
    TagsFile.tagFiles packageOnlyFS packageOnlyParseFile FileTags.new [bytes "f.go"] =
      .ok (⟨bytes "\x0c\nf.go,0\n", []⟩, none) ∧
    bytes "\x0c\nf.go,0\n" ≠ [] ∧
    emptyDisk (bytes "/t/TAGS") = .absent ∧
    Except.map (fun r => (r.1 (bytes "/t/TAGS"), r.2))
      (main .positional createFlags packageOnlyFS packageOnlyParseFile [bytes "f.go"] emptyDisk) =
      .ok (.file (bytes "\x0c\nf.go,0\n"), true) :=
  ⟨rfl, by decide, by decide, by decide, by decide, by decide⟩

/-- C12, the code at failing inputs. With `-a` the buffer goes to `WriteAt` at the offset
`t.bag.Len()`, the length of the buffer itself.  On a tags file of 3 bytes a buffer of 9
bytes lands at offset 9 after a gap of 6 zero bytes; on a tags file of 30 bytes it replaces
the bytes 9 to 17 and the length stays 30; where `WriteAt` is rejected nothing is written.
Only where the offset is ignored is the result the old content followed by the buffer. -/
theorem saveTags_append_writes_at_buffer_length :
    TagsFile.saveTags .positional appendFlags ⟨bytes "\x0c\nb.go,0\n", []⟩ oldDisk
        (bytes "/t/TAGS") =
      .file (bytes "old" ++ List.replicate 6 0 ++ bytes "\x0c\nb.go,0\n") ∧
    TagsFile.saveTags .positional appendFlags ⟨bytes "\x0c\nb.go,0\n", []⟩ oldDisk
        (bytes "/t/TAGS") ≠
      .file (bytes "old" ++ bytes "\x0c\nb.go,0\n") ∧
    TagsFile.saveTags .positional appendFlags ⟨bytes "\x0c\nb.go,0\n", []⟩ longDisk
        (bytes "/t/TAGS") =
      .file (bytes "012345678" ++ bytes "\x0c\nb.go,0\n" ++ bytes "ijABCDEFGHIJ") ∧
    TagsFile.saveTags .rejected appendFlags ⟨bytes "\x0c\nb.go,0\n", []⟩ oldDisk
        (bytes "/t/TAGS") = .file (bytes "old") ∧
    TagsFile.saveTags .appends appendFlags ⟨bytes "\x0c\nb.go,0\n", []⟩ oldDisk
        (bytes "/t/TAGS") = .file (bytes "old" ++ bytes "\x0c\nb.go,0\n") :=
  ⟨by decide, by decide, by decide, by decide, by decide⟩

/-- C13. Without `-a`, running the pipeline twice on the same input files leaves the disk
of the first run: `tagFiles` builds the same buffer, and writing it from offset 0 a second
time changes nothing, whatever the tags file held before the first run.  The first run
puts the buffer over the start of the old content and keeps the old bytes beyond it. -/
theorem overwrite_rerun_idempotent (mode : WriteAtMode) (flags : Flags) (fs : FileSystem)
    (ParseFile : Parser) (args : List (List Byte)) (disk : Disk)
    (h : flags.appendMode = false) :
    ∃ tea disk1 saved,
      TagsFile.tagFiles fs ParseFile FileTags.new args = .ok (tea, none) ∧
      main mode flags fs ParseFile args disk = .ok (disk1, saved) ∧
      main mode flags fs ParseFile args disk1 = .ok (disk1, saved) ∧
      (tea.bag ≠ [] → disk (flags.saveDir ++ flags.tagsName) = .absent →
        disk1 (flags.saveDir ++ flags.tagsName) = .file tea.bag) ∧
      (∀ content, tea.bag ≠ [] → disk (flags.saveDir ++ flags.tagsName) = .file content →
        disk1 (flags.saveDir ++ flags.tagsName) =
          .file (tea.bag ++ content.drop tea.bag.length)) := by
  by_cases hargs : args = []
  · subst hargs
    exact ⟨⟨[], []⟩, disk, false, by simp [tagFiles_eq], by simp [main_eq], by simp [main_eq],
      by simp, by simp⟩
  · refine ⟨⟨(args.map (fun f => block f (tagsOf fs ParseFile f))).flatten, []⟩,
      TagsFile.saveTags mode flags
        ⟨(args.map (fun f => block f (tagsOf fs ParseFile f))).flatten, []⟩ disk, true,
      tagFiles_eq fs ParseFile args, by simp [main_eq, hargs], ?_, ?_, ?_⟩
    · simp only [main_eq, hargs, if_false]
      rw [saveTags_create_idem mode flags _ disk h]
    · intro _ hd
      simp [TagsFile.saveTags, h, Sprintf_location, OpenFile, hd, WriteAt_zero]
    · intro content _ hd
      simp [TagsFile.saveTags, h, Sprintf_location, OpenFile, hd, WriteAt_zero]

/-- C13 at the file `b.go` and a tags file of 30 bytes. -/
theorem overwrite_rerun_idempotent_witness :
    createFlags.appendMode = false ∧
    ∃ tea disk1 saved,
      TagsFile.tagFiles exampleFS exampleParseFile FileTags.new [bytes "b.go"] =
        .ok (tea, none) ∧
      main .positional createFlags exampleFS exampleParseFile [bytes "b.go"] longDisk =
        .ok (disk1, saved) ∧
      main .positional createFlags exampleFS exampleParseFile [bytes "b.go"] disk1 =
        .ok (disk1, saved) ∧
      (tea.bag ≠ [] → longDisk (createFlags.saveDir ++ createFlags.tagsName) = .absent →
        disk1 (createFlags.saveDir ++ createFlags.tagsName) = .file tea.bag) ∧
      (∀ content, tea.bag ≠ [] →
        longDisk (createFlags.saveDir ++ createFlags.tagsName) = .file content →
        disk1 (createFlags.saveDir ++ createFlags.tagsName) =
          .file (tea.bag ++ content.drop tea.bag.length)) :=
  ⟨rfl, overwrite_rerun_idempotent .positional createFlags exampleFS exampleParseFile
    [bytes "b.go"] longDisk rfl⟩

/-- C14. For every list of input files `tagFiles` returns a nil error and appends one block
per input file, in order; a file that fails to parse contributes the header form feed,
newline, file name, comma, `0`, newline with an empty body, and the files after it are
still processed. -/
theorem tagFiles_one_block_per_file (fs : FileSystem) (ParseFile : Parser)
    (tagFile : TagsFile) (files : List (List Byte)) :
    TagsFile.tagFiles fs ParseFile tagFile files =
      .ok (⟨tagFile.bag ++ (files.map (fun f =>
        match ParseFile f with
        | .error _ => bytes "\x0c\n" ++ f ++ bytes "," ++ bytes "0" ++ bytes "\n"
        | .ok tr => bytes "\x0c\n" ++ f ++ bytes "," ++
            decimal (recordText fs tr.Decls).length ++ bytes "\n" ++
            recordText fs tr.Decls)).flatten, tagFile.calls⟩, none) := by
  have h0 : decimal 0 = bytes "0" := by decide
  have e : (fun f => block f (tagsOf fs ParseFile f)) = (fun f =>
        match ParseFile f with
        | .error _ => bytes "\x0c\n" ++ f ++ bytes "," ++ bytes "0" ++ bytes "\n"
        | .ok tr => bytes "\x0c\n" ++ f ++ bytes "," ++
            decimal (recordText fs tr.Decls).length ++ bytes "\n" ++
            recordText fs tr.Decls) := by
    funext f
    cases hp : ParseFile f with
    | error perr => simp [block, tagsOf_failed fs ParseFile f perr hp, h0]
    | ok tr => simp [block, tagsOf_ok fs ParseFile f tr hp]
  rw [TagsFile.tagFiles, tagFiles_loop_eq, e]

/-! ## Newlines -/

theorem GetLine_nonpos (r : List Byte) (n : Int) (h : n ≤ 0) :
    GetLine r n = .error .sliceBoundsOutOfRange := by
  have h0 : n.toNat = 0 := by omega
  simp [GetLine, h0, GetLine.loop]

theorem GetLine_pos_ok (r : List Byte) (n : Int) (hn : 1 ≤ n) :
    ∃ line err, GetLine r n = .ok (line, err) := by
  by_cases h : (r.count NL : Int) < n
  · exact ⟨[], some EOF, GetLine_short r n h⟩
  · obtain ⟨_, line, _, _, _, _, _, hg, _⟩ := GetLine_long r n hn (by omega)
    exact ⟨line, none, hg⟩

theorem GetLine_line_no_newline (r : List Byte) (n : Int) (line : List Byte)
    (h : GetLine r n = .ok (line, none)) : NL ∉ line := by
  by_cases hn : n ≤ 0
  · rw [GetLine_nonpos r n hn] at h
    cases h
  · by_cases hc : (r.count NL : Int) < n
    · rw [GetLine_short r n hc] at h
      cases h
    · obtain ⟨_, line1, _, _, _, _, hl, hg, _⟩ := GetLine_long r n (by omega) (by omega)
      rw [hg] at h
      cases h
      exact hl

theorem getFileLine_no_newline (fs : FileSystem) (name : List Byte) (n : Int)
    (s : List Byte) (h : getFileLine fs name n = .ok (s, none)) : NL ∉ s := by
  unfold getFileLine at h
  cases hf : fs name with
  | error e => rw [hf] at h; cases h
  | ok file =>
    rw [hf] at h
    exact GetLine_line_no_newline file n s h

theorem record_eq_snoc (s m : List Byte) (l c : Nat) :
    record s m l c =
      (s ++ bytes "\x7f" ++ m ++ bytes "\x01" ++ decimal l ++ bytes "," ++ decimal c) ++
        [NL] := by
  have h3 : bytes "\n" = [NL] := by decide
  simp [record, h3]

theorem record_body_no_newline (s m : List Byte) (l c : Nat) (hs : NL ∉ s) (hm : NL ∉ m) :
    NL ∉ s ++ bytes "\x7f" ++ m ++ bytes "\x01" ++ decimal l ++ bytes "," ++ decimal c := by
  have h2 : bytes "," = [44] := by decide
  have h4 : bytes "\x7f" = [127] := by decide
  have h5 : bytes "\x01" = [1] := by decide
  have hl : NL ∉ decimal l := not_mem_decimal l NL (by decide)
  have hc : NL ∉ decimal c := not_mem_decimal c NL (by decide)
  have h44 : NL ≠ (44 : Byte) := by decide
  have h127 : NL ≠ (127 : Byte) := by decide
  have h1 : NL ≠ (1 : Byte) := by decide
  simp [h2, h4, h5, hs, hm, hl, hc, h44, h127, h1]

theorem record_count (s m : List Byte) (l c : Nat) (hs : NL ∉ s) (hm : NL ∉ m) :
    (record s m l c).count NL = 1 := by
  rw [record_eq_snoc, List.count_append,
    count_eq_zero_of_not_mem NL _ (record_body_no_newline s m l c hs hm)]
  simp

theorem lineText_no_newline (fs : FileSystem) (leaf : Ident) (s : List Byte)
    (h : lineText fs leaf = some s) : NL ∉ s := by
  unfold lineText at h
  split at h
  · rename_i s1 hg
    cases h
    exact getFileLine_no_newline fs _ _ _ hg
  · cases h

theorem recordsOf_count (fs : FileSystem) (idents : List Ident)
    (h : ∀ leaf ∈ idents, NL ∉ leaf.Name) :
    (recordsOf fs idents).flatten.count NL = (recordsOf fs idents).length := by
  induction idents with
  | nil => simp [recordsOf]
  | cons a rest ih =>
    have ha : NL ∉ a.Name := h a (by simp)
    have hr := ih (fun leaf hl => h leaf (by simp [hl]))
    rw [recordsOf_cons, List.flatten_append, List.count_append, List.length_append, hr]
    congr 1
    cases hl : lineText fs a with
    | none => simp [recordsOf, hl]
    | some s =>
      have hs := lineText_no_newline fs a s hl
      simp [recordsOf, hl, record_count s a.Name _ _ hs ha]

/-- C15. For every byte stream the slice `sought[0:len(sought)-1]` of `GetLine` is out of
range exactly when `n <= 0`: for `n >= 1` it is reached only after `n` reads without error,
and then `sought` ends in the newline byte, so the upper bound is not negative. -/
theorem GetLine_slice_in_bounds :
    (∀ (r : List Byte) (n : Int), GetLine r n = .error .sliceBoundsOutOfRange ↔ n ≤ 0) ∧
    (∀ (r : List Byte) (n : Int) (sought : List Byte), 1 ≤ n →
      GetLine.loop NL n.toNat r [] = (sought, none) →
      (n : Int) ≤ r.count NL ∧ (∃ line, sought = line ++ [NL]) ∧
        0 ≤ (sought.length : Int) - 1) := by
  constructor
  · intro r n
    constructor
    · intro h
      by_contra hn
      obtain ⟨line, err, hg⟩ := GetLine_pos_ok r n (by omega)
      rw [hg] at h
      cases h
    · exact GetLine_nonpos r n
  · intro r n sought hn hloop
    by_cases hc : (r.count NL : Int) < n
    · obtain ⟨data, hd⟩ := GetLine.loop_eof n.toNat r [] (by omega)
      rw [hd] at hloop
      cases hloop
    · obtain ⟨k, hk⟩ : ∃ k : Nat, n.toNat = k + 1 := ⟨n.toNat - 1, by omega⟩
      obtain ⟨_, line, _, _, _, _, _, hl, _⟩ := GetLine.loop_line k r [] (by omega)
      rw [hk, hl] at hloop
      cases hloop
      exact ⟨by omega, ⟨line, rfl⟩, by simp⟩

/-- C15 at line 3 of `a.go`. -/
theorem GetLine_slice_in_bounds_witness :
    (1 : Int) ≤ 3 ∧
    GetLine.loop NL (3 : Int).toNat sourceA [] = (bytes "func Foo() \x7b\x7d\n", none) ∧
    ((3 : Int) ≤ sourceA.count NL ∧ (∃ line, bytes "func Foo() \x7b\x7d\n" = line ++ [NL]) ∧
      0 ≤ ((bytes "func Foo() \x7b\x7d\n").length : Int) - 1) :=
  ⟨by decide, by decide,
    GetLine_slice_in_bounds.2 sourceA 3 (bytes "func Foo() \x7b\x7d\n") (by decide) (by decide)⟩

/-! ## Reading a record back -/

theorem decimal_injective (a b : Nat) (h : decimal a = decimal b) : a = b := by
  have ha := parseDecimal_decimal a
  rw [h, parseDecimal_decimal b] at ha
  exact (Option.some.inj ha).symm

theorem record_shape (s m : List Byte) (l c : Nat) :
    record s m l c = ((s ++ 127 :: m) ++ 1 :: decimal l) ++ 44 :: (decimal c ++ [NL]) := by
  have h2 : bytes "," = [44] := by decide
  have h3 : bytes "\n" = [NL] := by decide
  have h4 : bytes "\x7f" = [127] := by decide
  have h5 : bytes "\x01" = [1] := by decide
  simp [record, h2, h3, h4, h5]

/-- A record whose name holds no byte `0x7f` determines its four fields. -/
theorem record_injective (s1 m1 s2 m2 : List Byte) (l1 c1 l2 c2 : Nat)
    (hm1 : (127 : Byte) ∉ m1) (hm2 : (127 : Byte) ∉ m2)
    (h : record s1 m1 l1 c1 = record s2 m2 l2 c2) :
    s1 = s2 ∧ m1 = m2 ∧ l1 = l2 ∧ c1 = c2 := by
  have hc : ∀ c : Nat, (44 : Byte) ∉ decimal c ++ [NL] := by
    intro c hmem
    rcases List.mem_append.1 hmem with hmem | hmem
    · exact not_mem_decimal c 44 (by decide) hmem
    · simp at hmem
      exact absurd hmem (by decide)
  have hl : ∀ l : Nat, (1 : Byte) ∉ decimal l := fun l => not_mem_decimal l 1 (by decide)
  rw [record_shape, record_shape] at h
  have h44 := congrArg (cutLast 44) h
  rw [cutLast_append 44 _ _ (hc c1), cutLast_append 44 _ _ (hc c2)] at h44
  have hpair := Option.some.inj h44
  have hx := (Prod.mk.inj hpair).1
  have hy := (Prod.mk.inj hpair).2
  have hcc : c1 = c2 := decimal_injective c1 c2 (List.append_cancel_right hy)
  have h1 := congrArg (cutLast 1) hx
  rw [cutLast_append 1 _ _ (hl l1), cutLast_append 1 _ _ (hl l2)] at h1
  have hpair1 := Option.some.inj h1
  have hll : l1 = l2 := decimal_injective l1 l2 (Prod.mk.inj hpair1).2
  have h127 := congrArg (cutLast 127) (Prod.mk.inj hpair1).1
  rw [cutLast_append 127 _ _ hm1, cutLast_append 127 _ _ hm2] at h127
  have hpair2 := Option.some.inj h127
  exact ⟨(Prod.mk.inj hpair2).1, (Prod.mk.inj hpair2).2, hll, hcc⟩

/-- An identifier holds no byte `0x7f`. -/
theorem isIdentifier_no_del (m : List Byte) (h : isIdentifier m = true) :
    (127 : Byte) ∉ m := by
  cases m with
  | nil => simp
  | cons b rest =>
    simp only [isIdentifier, Bool.and_eq_true, List.all_eq_true] at h
    intro hmem
    rcases List.mem_cons.1 hmem with e | e
    · rw [← e] at h
      exact absurd h.1 (by decide)
    · exact absurd (h.2 127 e) (by decide)

/-- Two identifiers whose lines resolve and whose fields differ get different records. -/
theorem tagIdent_injective (fs : FileSystem) (t : FileTags) (leaf1 leaf2 : Ident)
    (s1 s2 : List Byte)
    (hm1 : (127 : Byte) ∉ leaf1.Name) (hm2 : (127 : Byte) ∉ leaf2.Name)
    (h1 : getFileLine fs leaf1.Pos.Filename ((leaf1.Pos.Line : Nat) : Int) = .ok (s1, none))
    (h2 : getFileLine fs leaf2.Pos.Filename ((leaf2.Pos.Line : Nat) : Int) = .ok (s2, none))
    (hne : (s1, leaf1.Name, (leaf1.Pos.Line : Nat), (leaf1.Pos.Column : Nat)) ≠
      (s2, leaf2.Name, (leaf2.Pos.Line : Nat), (leaf2.Pos.Column : Nat))) :
    ∃ t1 t2, t.tagIdent fs leaf1 = .ok t1 ∧ t.tagIdent fs leaf2 = .ok t2 ∧
      t1.bag = t.bag ++ record s1 leaf1.Name leaf1.Pos.Line leaf1.Pos.Column ∧
      t2.bag = t.bag ++ record s2 leaf2.Name leaf2.Pos.Line leaf2.Pos.Column ∧
      t1.bag ≠ t2.bag := by
  refine ⟨_, _, tagIdent_eq fs t leaf1, tagIdent_eq fs t leaf2, ?_, ?_, ?_⟩
  · simp [recordsOf, lineText, h1]
  · simp [recordsOf, lineText, h2]
  · intro hb
    apply hne
    have hr : record s1 leaf1.Name leaf1.Pos.Line leaf1.Pos.Column =
        record s2 leaf2.Name leaf2.Pos.Line leaf2.Pos.Column := by
      simpa [recordsOf, lineText, h1, h2] using hb
    obtain ⟨e1, e2, e3, e4⟩ := record_injective _ _ _ _ _ _ _ _ hm1 hm2 hr
    rw [e1, e2, e3, e4]

/-- C16, as amended. The record format is injective on names that are identifiers: the
bytes `0x7f` and `0x01` of line 95 part the line text, the name and the line number, so
for two different (line text, name, line, column) inputs whose lines resolve `tagIdent`
appends different records, and equal records have equal fields. -/
theorem record_injective_on_identifiers (fs : FileSystem) (t : FileTags)
    (leaf1 leaf2 : Ident) (s1 s2 : List Byte)
    (hid1 : isIdentifier leaf1.Name = true) (hid2 : isIdentifier leaf2.Name = true)
    (h1 : getFileLine fs leaf1.Pos.Filename ((leaf1.Pos.Line : Nat) : Int) = .ok (s1, none))
    (h2 : getFileLine fs leaf2.Pos.Filename ((leaf2.Pos.Line : Nat) : Int) = .ok (s2, none))
    (hne : (s1, leaf1.Name, (leaf1.Pos.Line : Nat), (leaf1.Pos.Column : Nat)) ≠
      (s2, leaf2.Name, (leaf2.Pos.Line : Nat), (leaf2.Pos.Column : Nat))) :
    (∃ t1 t2, t.tagIdent fs leaf1 = .ok t1 ∧ t.tagIdent fs leaf2 = .ok t2 ∧
      t1.bag = t.bag ++ record s1 leaf1.Name leaf1.Pos.Line leaf1.Pos.Column ∧
      t2.bag = t.bag ++ record s2 leaf2.Name leaf2.Pos.Line leaf2.Pos.Column ∧
      t1.bag ≠ t2.bag) ∧
    (∀ (s m : List Byte) (l c : Nat), record s m l c =
      record s1 leaf1.Name leaf1.Pos.Line leaf1.Pos.Column → isIdentifier m = true →
      s = s1 ∧ m = leaf1.Name ∧ l = leaf1.Pos.Line ∧ c = leaf1.Pos.Column) :=
  ⟨tagIdent_injective fs t leaf1 leaf2 s1 s2 (isIdentifier_no_del _ hid1)
      (isIdentifier_no_del _ hid2) h1 h2 hne,
    fun s m l c hr hid =>
      record_injective s m s1 leaf1.Name l c _ _ (isIdentifier_no_del m hid)
        (isIdentifier_no_del _ hid1) hr⟩

/-- C16, as amended, at the names `b1` on line 2 and `b` on line 12 of `g.go`. -/
theorem record_injective_on_identifiers_witness :
    isIdentifier (bytes "b1") = true ∧ isIdentifier (bytes "b") = true ∧
    getFileLine fsG (bytes "g.go") 2 = .ok (bytes "var b1 int", none) ∧
    getFileLine fsG (bytes "g.go") 12 = .ok (bytes "var b1 int", none) ∧
    (bytes "var b1 int", bytes "b1", (2 : Nat), (5 : Nat)) ≠
      (bytes "var b1 int", bytes "b", (12 : Nat), (5 : Nat)) ∧
    ∃ t1 t2,
      FileTags.tagIdent fsG FileTags.new ⟨bytes "b1", ⟨bytes "g.go", 2, 5⟩⟩ = .ok t1 ∧
      FileTags.tagIdent fsG FileTags.new ⟨bytes "b", ⟨bytes "g.go", 12, 5⟩⟩ = .ok t2 ∧
      t1.bag = FileTags.new.bag ++ record (bytes "var b1 int") (bytes "b1") 2 5 ∧
      t2.bag = FileTags.new.bag ++ record (bytes "var b1 int") (bytes "b") 12 5 ∧
      t1.bag ≠ t2.bag :=
  ⟨by decide, by decide, by decide, by decide, by decide,
    (record_injective_on_identifiers fsG FileTags.new ⟨bytes "b1", ⟨bytes "g.go", 2, 5⟩⟩
      ⟨bytes "b", ⟨bytes "g.go", 12, 5⟩⟩ (bytes "var b1 int") (bytes "var b1 int")
      (by decide) (by decide) (by decide) (by decide) (by decide)).1⟩

/-- C16, counterexample. No two different (line text, name, line, column) inputs whose
names are identifiers have the same record, and for the inputs of the claim, the name `b1`
at line 2 and the name `b` at line 12 on the same line text and column, `tagIdent` appends
different bytes. -/
theorem record_collision_counterexample :
    (¬ ∃ (s1 m1 s2 m2 : List Byte) (l1 c1 l2 c2 : Nat),
      isIdentifier m1 = true ∧ isIdentifier m2 = true ∧
      (s1, m1, l1, c1) ≠ (s2, m2, l2, c2) ∧ record s1 m1 l1 c1 = record s2 m2 l2 c2) ∧
    FileTags.tagIdent fsG FileTags.new ⟨bytes "b1", ⟨bytes "g.go", 2, 5⟩⟩ =
      .ok ⟨bytes "var b1 int\x7fb1\x012,5\n", [⟨bytes "b1", ⟨bytes "g.go", 2, 5⟩⟩]⟩ ∧
    FileTags.tagIdent fsG FileTags.new ⟨bytes "b", ⟨bytes "g.go", 12, 5⟩⟩ =
      .ok ⟨bytes "var b1 int\x7fb\x0112,5\n", [⟨bytes "b", ⟨bytes "g.go", 12, 5⟩⟩]⟩ ∧
    bytes "var b1 int\x7fb1\x012,5\n" ≠ bytes "var b1 int\x7fb\x0112,5\n" := by
  refine ⟨?_, by decide, by decide, by decide⟩
  rintro ⟨s1, m1, s2, m2, l1, c1, l2, c2, hid1, hid2, hne, hr⟩
  obtain ⟨e1, e2, e3, e4⟩ := record_injective s1 m1 s2 m2 l1 c1 l2 c2
    (isIdentifier_no_del m1 hid1) (isIdentifier_no_del m2 hid2) hr
  exact hne (by rw [e1, e2, e3, e4])

/-- C17. The line text of a successful `GetLine` holds no newline byte; hence for an
identifier whose name holds none, the record `tagIdent` appends ends in a newline and holds
no other, and the number of newline bytes in the record text of a file is the number of
records emitted for the file. -/
theorem record_text_newline_count (fs : FileSystem) (ParseFile : Parser) :
    (∀ (r : List Byte) (n : Int) (line : List Byte),
      GetLine r n = .ok (line, none) → NL ∉ line) ∧
    (∀ (t : FileTags) (leaf : Ident) (s : List Byte), NL ∉ leaf.Name →
      getFileLine fs leaf.Pos.Filename ((leaf.Pos.Line : Nat) : Int) = .ok (s, none) →
      ∃ body, NL ∉ body ∧ (body ++ [NL]).count NL = 1 ∧
        t.tagIdent fs leaf = .ok ⟨t.bag ++ (body ++ [NL]), t.calls ++ [leaf]⟩) ∧
    (∀ (fileName : List Byte) (file : File), ParseFile fileName = .ok file →
      (∀ leaf ∈ taggable file.Decls, NL ∉ leaf.Name) →
      ∃ t1 tags, FileTags.parse fs ParseFile FileTags.new fileName = .ok (t1, tags, none) ∧
        tags.count NL = (recordsOf fs (taggable file.Decls)).length) := by
  refine ⟨GetLine_line_no_newline, ?_, ?_⟩
  · intro t leaf s hm hg
    have hs := getFileLine_no_newline fs _ _ s hg
    have hb := record_body_no_newline s leaf.Name leaf.Pos.Line leaf.Pos.Column hs hm
    refine ⟨_, hb, ?_, ?_⟩
    · rw [List.count_append, count_eq_zero_of_not_mem NL _ hb]
      simp
    · rw [tagIdent_eq, ← record_eq_snoc]
      simp [recordsOf, lineText, hg]
  · intro fileName file hp hnames
    refine ⟨_, _, parse_ok fs ParseFile FileTags.new fileName file hp, ?_⟩
    simpa [FileTags.new, recordText] using recordsOf_count fs (taggable file.Decls) hnames

/-- C17 at the file `a.go`: three records and three newline bytes. -/
theorem record_text_newline_count_witness :
    GetLine sourceA 3 = .ok (bytes "func Foo() \x7b\x7d", none) ∧
    NL ∉ bytes "func Foo() \x7b\x7d" ∧
    exampleParseFile (bytes "a.go") = .ok treeA ∧
    (∀ leaf ∈ taggable treeA.Decls, NL ∉ leaf.Name) ∧
    (recordsOf exampleFS (taggable treeA.Decls)).length = 3 ∧
    ∃ t1 tags, FileTags.parse exampleFS exampleParseFile FileTags.new (bytes "a.go") =
        .ok (t1, tags, none) ∧
      tags.count NL = (recordsOf exampleFS (taggable treeA.Decls)).length := by
  have h := record_text_newline_count exampleFS exampleParseFile
  have hn : ∀ leaf ∈ taggable treeA.Decls, NL ∉ leaf.Name := by decide
  exact ⟨by decide, h.1 sourceA 3 _ (by decide), rfl, hn, by decide,
    h.2.2 (bytes "a.go") treeA rfl hn⟩

end Tago
